import Mathlib

/-!
Verification of the files-multitool repository: a shallow embedding of the
TypeScript sources (src/base.ts, src/index.ts, src/adaptors/indexed-db/index.ts)
together with proofs about the embedded operations.

JavaScript strings are modelled as `List Char`; JS `Date` values as `Nat`
timestamps supplied to each operation; `Buffer` byte payloads as `List Nat`
(each byte < 256); fallible asynchronous methods as explicit state passing
returning `Except Err`.
-/

set_option maxHeartbeats 1000000

abbrev JSStr := List Char

abbrev Err := List Char

/-! ### JS string primitives used by the sources -/

/-- `s.split('/')` from JS: always returns at least one (possibly empty) segment. -/
def splitSlash : JSStr → List JSStr
  | [] => [[]]
  | c :: rest =>
    if c = '/' then [] :: splitSlash rest
    else
      match splitSlash rest with
      | [] => [[c]]
      | s :: ss => (c :: s) :: ss

/-- `parts.join('/')` from JS. -/
def joinSegs : List JSStr → JSStr
  | [] => []
  | s :: ss =>
    match ss with
    | [] => s
    | _ :: _ => s ++ '/' :: joinSegs ss

/-- `path.split('/').pop()` : the final segment of a path. -/
def lastSeg (s : JSStr) : JSStr := (splitSlash s).getLastD []

/-- Boolean string-prefix test (elementwise). -/
def isPre : JSStr → JSStr → Bool
  | [], _ => true
  | _ :: _, [] => false
  | a :: s, b :: t => a = b && isPre s t

/-- JS `s.includes(pat)` : substring occurrence test. -/
def isSub (pat : JSStr) : JSStr → Bool
  | [] => pat.isEmpty
  | c :: rest => isPre pat (c :: rest) || isSub pat rest

/-- JS `s.replace(pat, rep)` with a string pattern: replaces the first
occurrence only (the whole string is returned unchanged when `pat` does
not occur). -/
def replaceFirst : JSStr → JSStr → JSStr → JSStr
  | [], pat, rep => if isPre pat [] then rep else []
  | c :: rest, pat, rep =>
    if isPre pat (c :: rest) then rep ++ (c :: rest).drop pat.length
    else c :: replaceFirst rest pat rep

/-- The regex replace `/\/+/g → '/'`: collapse every run of slashes to one. -/
def collapseSlashes : JSStr → JSStr
  | [] => []
  | [c] => [c]
  | c :: d :: rest =>
    if c = '/' ∧ d = '/' then collapseSlashes (d :: rest)
    else c :: collapseSlashes (d :: rest)

/-- Strip a single leading slash (the `^\/` alternative of the strip regex). -/
def stripLead : JSStr → JSStr
  | [] => []
  | c :: rest => if c = '/' then rest else c :: rest

/-- Strip a single trailing slash (the `\/$` alternative of the strip regex). -/
def stripTrail : JSStr → JSStr
  | [] => []
  | [c] => if c = '/' then [] else [c]
  | c :: d :: rest => c :: stripTrail (d :: rest)

/-- The regex replace `/(^\/)|(\/$)/g → ''` used throughout the sources:
removes one leading and one trailing slash. -/
def stripSlashes (s : JSStr) : JSStr := stripTrail (stripLead s)

/-- The parent-path formula `path.split('/').slice(0, -1).join('/')
.replace(/(^\/)|(\/$)/g, '')` used by `writeFile` and `mkdir`. -/
def parentOfPath (p : JSStr) : JSStr :=
  stripSlashes (joinSegs (splitSlash p).dropLast)

/-! ### base64 (Node `Buffer` content serialization) -/

def b64chars : List Char :=
  "ABCDEFGHIJKLMNOPQRSTUVWXYZabcdefghijklmnopqrstuvwxyz0123456789+/".data

def encChar (n : Nat) : Char := b64chars.getD n 'A'

def decChar (c : Char) : Nat := b64chars.indexOf c

/-- `buffer.toString('base64')`. -/
def b64encode : List Nat → JSStr
  | [] => []
  | [a] => [encChar (a / 4), encChar (a % 4 * 16), '=', '=']
  | [a, b] => [encChar (a / 4), encChar (a % 4 * 16 + b / 16), encChar (b % 16 * 4), '=']
  | a :: b :: c :: rest =>
    encChar (a / 4) :: encChar (a % 4 * 16 + b / 16) ::
    encChar (b % 16 * 4 + c / 64) :: encChar (c % 64) :: b64encode rest

/-- `Buffer.from(s, 'base64')` on well-formed base64 text. -/
def b64decode : JSStr → List Nat
  | w :: x :: y :: z :: rest =>
    if z = '=' then
      if y = '=' then [decChar w * 4 + decChar x / 16]
      else [decChar w * 4 + decChar x / 16, decChar x % 16 * 16 + decChar y / 4]
    else
      (decChar w * 4 + decChar x / 16) :: (decChar x % 16 * 16 + decChar y / 4) ::
      (decChar y % 4 * 64 + decChar z) :: b64decode rest
  | _ => []

theorem decChar_encChar_fin : ∀ n : Fin 64, decChar (encChar n.1) = n.1 := by decide

theorem encChar_ne_eq_fin : ∀ n : Fin 64, encChar n.1 ≠ '=' := by decide

theorem decChar_encChar {n : Nat} (h : n < 64) : decChar (encChar n) = n :=
  decChar_encChar_fin ⟨n, h⟩

theorem encChar_ne_eq {n : Nat} (h : n < 64) : encChar n ≠ '=' :=
  encChar_ne_eq_fin ⟨n, h⟩

theorem b64_roundtrip : ∀ bs : List Nat, (∀ x ∈ bs, x < 256) →
    b64decode (b64encode bs) = bs := by
  intro bs
  induction bs using b64encode.induct with
  | case1 => intro _; rfl
  | case2 a =>
    intro h
    have ha : a < 256 := h a (by simp)
    have h1 : a / 4 < 64 := by omega
    have h2 : a % 4 * 16 < 64 := by omega
    simp only [b64encode, b64decode, if_true]
    rw [decChar_encChar h1, decChar_encChar h2]
    have e1 : a / 4 * 4 + a % 4 * 16 / 16 = a := by omega
    rw [e1]
  | case3 a b =>
    intro h
    have ha : a < 256 := h a (by simp)
    have hb : b < 256 := h b (by simp)
    have h1 : a / 4 < 64 := by omega
    have h2 : a % 4 * 16 + b / 16 < 64 := by omega
    have h3 : b % 16 * 4 < 64 := by omega
    simp only [b64encode, b64decode, if_true]
    rw [if_neg (encChar_ne_eq h3)]
    rw [decChar_encChar h1, decChar_encChar h2, decChar_encChar h3]
    have e1 : a / 4 * 4 + (a % 4 * 16 + b / 16) / 16 = a := by omega
    have e2 : (a % 4 * 16 + b / 16) % 16 * 16 + b % 16 * 4 / 4 = b := by omega
    rw [e1, e2]
  | case4 a b c rest ih =>
    intro h
    have ha : a < 256 := h a (by simp)
    have hb : b < 256 := h b (by simp)
    have hc : c < 256 := h c (by simp)
    have h1 : a / 4 < 64 := by omega
    have h2 : a % 4 * 16 + b / 16 < 64 := by omega
    have h3 : b % 16 * 4 + c / 64 < 64 := by omega
    have h4 : c % 64 < 64 := by omega
    simp only [b64encode, b64decode]
    rw [if_neg (encChar_ne_eq h4)]
    rw [decChar_encChar h1, decChar_encChar h2, decChar_encChar h3, decChar_encChar h4]
    rw [ih (fun x hx => h x (by simp [hx]))]
    have e1 : a / 4 * 4 + (a % 4 * 16 + b / 16) / 16 = a := by omega
    have e2 : (a % 4 * 16 + b / 16) % 16 * 16 + (b % 16 * 4 + c / 64) / 4 = b := by omega
    have e3 : (b % 16 * 4 + c / 64) % 4 * 64 + c % 64 = c := by omega
    rw [e1, e2, e3]

/-! ### Data model (definitions.d.ts) -/

/-- `FileStat` from definitions.d.ts. `Date` values are Nat timestamps. -/
structure FileStat where
  path : JSStr
  parentPath : JSStr
  isDirectory : Bool
  isFile : Bool
  size : Nat
  modifiedTime : Option Nat
  createdTime : Option Nat
  deriving DecidableEq

/-- `PathMap` from definitions.d.ts: a JS object modelled as an
insertion-ordered association list. -/
abbrev PathMap := List (JSStr × FileStat)

/-- `IndexedDBFileStat` from adaptors/indexed-db: a FileStat extended with a
serialized content payload and a soft-deletion marker. -/
structure IndexedDBFileStat extends FileStat where
  content : Option JSStr := none
  deletedAt : Option Nat := none
  deriving DecidableEq

/-- `_convertFileStat`: clone the record and drop `content`/`deletedAt`. -/
def convertFileStat (s : IndexedDBFileStat) : FileStat := s.toFileStat

/-- The IndexedDB object store: a keyed collection of records. -/
abbrev Store := List IndexedDBFileStat

def errFileNotFound : Err := "File not found.".data
def errDirNotFound : Err := "Directory not found.".data
def errCannotReadDir : Err := "Cannot read a directory.".data
def errDirToFile : Err := "Cannot copy a directory to a file.".data
def errFuel : Err := "Transaction aborted.".data

/-- The `joinPath` helper of adaptors/indexed-db:
`[path.replace(/\/$/, ''), fileName.replace(/^\//, '')].filter(v => v).join('/')`. -/
def joinPath (path fileName : JSStr) : JSStr :=
  joinSegs (([stripTrail path, stripLead fileName]).filter (fun v => !v.isEmpty))

/-! ### IndexedDBAdaptor internal helpers -/

/-- `store.get(path)` keyed lookup (`_getItem` without the tombstone filter). -/
def getItem (p : JSStr) : Store → Option IndexedDBFileStat
  | [] => none
  | r :: tl => if r.path = p then some r else getItem p tl

/-- `store.delete(path)` (`_removeItem`). -/
def removeItem (p : JSStr) : Store → Store
  | [] => []
  | r :: tl => if r.path = p then removeItem p tl else r :: removeItem p tl

/-- `store.put(record)`: keyed upsert. -/
def putStore (r : IndexedDBFileStat) (st : Store) : Store :=
  removeItem r.path st ++ [r]

/-- `_putItem`: physically collect a tombstoned predecessor, or inherit
`createdTime` from a live one, then upsert. Returns the written record. -/
def putItem (s : IndexedDBFileStat) (st : Store) : Store × IndexedDBFileStat :=
  match getItem s.path st with
  | some ex =>
    if ex.deletedAt.isSome then (putStore s (removeItem s.path st), s)
    else
      let ws := { s with createdTime := ex.createdTime }
      (putStore ws st, ws)
  | none => (putStore s st, s)

/-- `_listItems`: secondary-index scan on exact `parentPath` equality. -/
def listItems (p : JSStr) : Store → List IndexedDBFileStat
  | [] => []
  | r :: tl => if r.parentPath = p then r :: listItems p tl else listItems p tl

/-! ### IndexedDBAdaptor methods -/

/-- `IndexedDBAdaptor.stat`. -/
def statA (p : JSStr) (st : Store) : Option FileStat :=
  match getItem p st with
  | none => none
  | some s => if s.deletedAt.isSome then none else some (convertFileStat s)

/-- `IndexedDBAdaptor.readFile`. -/
def readFileA (p : JSStr) (st : Store) : Except Err (List Nat) :=
  match getItem p st with
  | none => .error errFileNotFound
  | some s =>
    if s.deletedAt.isSome then .error errFileNotFound
    else if s.isDirectory then .error errCannotReadDir
    else .ok (b64decode (s.content.getD []))

/-- The record `IndexedDBAdaptor.writeFile` builds. -/
def writeRecord (p : JSStr) (content : List Nat) (now : Nat) : IndexedDBFileStat :=
  { path := p
    parentPath := parentOfPath p
    isDirectory := false
    isFile := true
    size := content.length
    modifiedTime := some now
    createdTime := some now
    content := some (b64encode content)
    deletedAt := none }

/-- `IndexedDBAdaptor.writeFile`. -/
def writeFileA (p : JSStr) (content : List Nat) (now : Nat) (st : Store) : Store :=
  (putItem (writeRecord p content now) st).1

/-- `IndexedDBAdaptor.deleteFile`: tombstone a live record. -/
def deleteFileA (p : JSStr) (now : Nat) (st : Store) : Store × Except Err Unit :=
  match getItem p st with
  | none => (st, .error errFileNotFound)
  | some s =>
    if s.deletedAt.isSome then (st, .error errFileNotFound)
    else ((putItem { s with deletedAt := some now } st).1, .ok ())

/-- `IndexedDBAdaptor.list`: direct children, tombstones filtered out. -/
def listA (p : JSStr) (st : Store) : PathMap :=
  ((listItems p st).filter (fun r => !r.deletedAt.isSome)).map
    (fun r => (r.path, convertFileStat r))

/-- The record `IndexedDBAdaptor.mkdir` builds for a missing segment. -/
def mkdirRecord (partPath : JSStr) (now : Nat) : IndexedDBFileStat :=
  { path := partPath
    parentPath := parentOfPath partPath
    isDirectory := true
    isFile := false
    size := 0
    modifiedTime := some now
    createdTime := some now
    content := none
    deletedAt := none }

/-- The segment loop of `IndexedDBAdaptor.mkdir`: `done` holds the segments
already processed, `rest` the ones still to process. -/
def mkdirGo (now : Nat) : List JSStr → List JSStr → Store → Store
  | _, [], st => st
  | done, part :: rest, st =>
    let partPath := joinSegs (done ++ [part])
    let st' :=
      match getItem partPath st with
      | none => (putItem (mkdirRecord partPath now) st).1
      | some s =>
        if s.deletedAt.isSome then (putItem (mkdirRecord partPath now) st).1 else st
    mkdirGo now (done ++ [part]) rest st'

/-- `IndexedDBAdaptor.mkdir`: create every missing ancestor segment. -/
def mkdirA (p : JSStr) (now : Nat) (st : Store) : Store :=
  mkdirGo now [] (splitSlash (stripSlashes p)) st

mutual

/-- `IndexedDBAdaptor.rmdir`: recursively tombstone the subtree. `fuel` bounds
the recursion depth; exhausting it models a substrate fault and never happens
for well-formed stores given enough fuel. -/
def rmdirA (now : Nat) : Nat → JSStr → Store → Store × Except Err Unit
  | 0, _, st => (st, .error errFuel)
  | fuel + 1, p, st =>
    match getItem p st with
    | none => (st, .error errDirNotFound)
    | some s =>
      if s.deletedAt.isSome then (st, .error errDirNotFound)
      else
        match rmdirChildren now fuel (listItems p st) p st with
        | (st1, .error e) => (st1, .error e)
        | (st1, .ok _) => ((putItem { s with deletedAt := some now } st1).1, .ok ())
termination_by fuel p st => (fuel, 0)

/-- The item loop of `IndexedDBAdaptor.rmdir`. -/
def rmdirChildren (now fuel : Nat) : List IndexedDBFileStat → JSStr → Store → Store × Except Err Unit
  | [], _, st => (st, .ok ())
  | item :: rest, p, st =>
    if item.deletedAt.isSome then rmdirChildren now fuel rest p st
    else
      let itemPath := joinPath p (lastSeg item.path)
      match (if item.isDirectory then rmdirA now fuel itemPath st
             else deleteFileA itemPath now st) with
      | (st1, .ok _) => rmdirChildren now fuel rest p st1
      | (st1, .error e) => (st1, .error e)
termination_by items p st => (fuel, items.length + 1)

end

/-- `IndexedDBAdaptor._copyFile`. -/
def copyFileA (p targetPath : JSStr) (newFileName : Option JSStr) (st : Store) :
    Store × Except Err Unit :=
  match getItem p st with
  | none => (st, .error errFileNotFound)
  | some s =>
    if s.deletedAt.isSome then (st, .error errFileNotFound)
    else
      let fileName :=
        match newFileName with
        | some n => if n.isEmpty then lastSeg s.path else n
        | none => lastSeg s.path
      ((putItem { s with path := joinPath targetPath fileName, parentPath := targetPath } st).1,
       .ok ())

mutual

/-- `IndexedDBAdaptor._copyDirectory`. -/
def copyDirA (now : Nat) : Nat → JSStr → JSStr → Bool → Store → Store × Except Err Unit
  | 0, _, _, _, st => (st, .error errFuel)
  | fuel + 1, p, newPath, recursive, st =>
    match getItem p st with
    | none => (st, .error errDirNotFound)
    | some s =>
      if s.deletedAt.isSome then (st, .error errDirNotFound)
      else
        let items := listItems p st
        copyDirChildren now fuel recursive items p newPath (mkdirA newPath now st)
termination_by fuel p newPath recursive st => (fuel, 0)

/-- The item loop of `IndexedDBAdaptor._copyDirectory`. -/
def copyDirChildren (now fuel : Nat) (recursive : Bool) :
    List IndexedDBFileStat → JSStr → JSStr → Store → Store × Except Err Unit
  | [], _, _, st => (st, .ok ())
  | item :: rest, p, newPath, st =>
    if item.deletedAt.isSome then copyDirChildren now fuel recursive rest p newPath st
    else
      let itemPath := joinPath p (lastSeg item.path)
      if item.isDirectory && recursive then
        let newItemPath := joinPath newPath (lastSeg item.path)
        match copyDirA now fuel itemPath newItemPath recursive st with
        | (st1, .ok _) => copyDirChildren now fuel recursive rest p newPath st1
        | (st1, .error e) => (st1, .error e)
      else if item.isFile then
        match copyFileA itemPath newPath none st with
        | (st1, .ok _) => copyDirChildren now fuel recursive rest p newPath st1
        | (st1, .error e) => (st1, .error e)
      else copyDirChildren now fuel recursive rest p newPath st
termination_by items p newPath st => (fuel, items.length + 1)

end

/-! ### BaseAdaptor: the adaptor contract and the generic copy/move -/

/-- `guessIfFolderPath` from base.ts. -/
def guessIfFolderPath (path : JSStr) : Bool :=
  let fileName := lastSeg path
  (path.getLast? == some '/') || !(isSub ['.'] fileName)

/-- The abstract adaptor capability set of base.ts (`BaseAdaptor`): each
operation maps a state to a new state and a result. -/
structure Adaptor (σ : Type) where
  stat : JSStr → σ → σ × Except Err (Option FileStat)
  readFile : JSStr → σ → σ × Except Err (List Nat)
  writeFile : JSStr → List Nat → σ → σ × Except Err Unit
  deleteFile : JSStr → σ → σ × Except Err Unit
  list : JSStr → σ → σ × Except Err PathMap
  mkdir : JSStr → σ → σ × Except Err Unit
  rmdir : JSStr → σ → σ × Except Err Unit
  copyFile : JSStr → JSStr → Option JSStr → σ → σ × Except Err Unit
  copyDirectory : JSStr → JSStr → Bool → σ → σ × Except Err Unit

/-- Generic `BaseAdaptor.copy`, built only from the primitives. -/
def Adaptor.copy (A : Adaptor σ) (path newPath : JSStr) (recursive : Bool) (st : σ) :
    σ × Except Err Unit :=
  let copyingToFolderPath := guessIfFolderPath newPath
  match A.stat path st with
  | (st1, .error e) => (st1, .error e)
  | (st1, .ok sourceStat) =>
    let targetPath :=
      if copyingToFolderPath then newPath else joinSegs (splitSlash newPath).dropLast
    match A.mkdir targetPath st1 with
    | (st2, .error e) => (st2, .error e)
    | (st2, .ok _) =>
      match (if sourceStat.elim false (·.isDirectory) then
               (if !copyingToFolderPath then (st2, .error errDirToFile)
                else A.copyDirectory path targetPath recursive st2)
             else (st2, .ok ())) with
      | (st3, .error e) => (st3, .error e)
      | (st3, .ok _) =>
        if sourceStat.elim false (·.isFile) then
          let newFileName :=
            if !copyingToFolderPath then some (lastSeg newPath) else none
          A.copyFile path targetPath newFileName st3
        else (st3, .ok ())

/-- Generic `BaseAdaptor.move`: copy recursively, then delete the source. -/
def Adaptor.move (A : Adaptor σ) (path newPath : JSStr) (st : σ) :
    σ × Except Err Unit :=
  match A.stat path st with
  | (st1, .error e) => (st1, .error e)
  | (st1, .ok sourceStat) =>
    match A.copy path newPath true st1 with
    | (st2, .error e) => (st2, .error e)
    | (st2, .ok _) =>
      if sourceStat.elim false (·.isDirectory) then A.rmdir path st2
      else A.deleteFile path st2

/-- The IndexedDB adaptor packaged behind the adaptor contract. -/
def idb (fuel now : Nat) : Adaptor Store where
  stat := fun p st => (st, .ok (statA p st))
  readFile := fun p st => (st, readFileA p st)
  writeFile := fun p c st => (writeFileA p c now st, .ok ())
  deleteFile := fun p st => deleteFileA p now st
  list := fun p st => (st, .ok (listA p st))
  mkdir := fun p st => (mkdirA p now st, .ok ())
  rmdir := fun p st => rmdirA now fuel p st
  copyFile := fun p t n st => copyFileA p t n st
  copyDirectory := fun p t r st => copyDirA now fuel p t r st

/-! ### Orchestrator (src/index.ts) -/

def errInvalidPath : Err := "Invalid path.".data
def errWriteDir : Err := "Cannot write to a directory.".data
def errDirExists : Err := "Directory already exists.".data
def errCannotDeleteFile : Err := "Cannot delete a file.".data
def errDirNotEmpty : Err := "Directory is not empty.".data

/-- `cleanPath` (src/index.ts): reject `..`, collapse repeated slashes, strip
a leading and a trailing slash; empty input is returned unchanged. -/
def cleanPath (path : JSStr) : Except Err JSStr :=
  if path.isEmpty then .ok []
  else if isSub ['.', '.'] path then .error errInvalidPath
  else .ok (stripSlashes (collapseSlashes path))

inductive ChangeAction where
  | added
  | deleted
  | modified
  | renamed
  deriving DecidableEq

/-- `FilesMultitoolChangeEvent`. `stat` is an Option because the code casts a
possibly-null stat result; `oldPath`/`oldStat` are `none` when absent or null. -/
structure FilesMultitoolChangeEvent where
  path : JSStr
  stat : Option FileStat
  oldPath : Option JSStr := none
  oldStat : Option FileStat := none
  action : ChangeAction
  deriving DecidableEq

/-- The event vocabulary of `FilesMultitoolEvents`. -/
inductive Ev where
  | fileAdded (path : JSStr)
  | fileDeleted (path : JSStr)
  | fileChanged (path : JSStr) (change : FilesMultitoolChangeEvent)
  | fileRenamed (newPath : JSStr) (oldPath : Option JSStr)
  | dirAdded (path : JSStr)
  | dirDeleted (path : JSStr)
  | dirChanged (path : JSStr) (change : FilesMultitoolChangeEvent)
  | dirRenamed (newPath : JSStr) (oldPath : Option JSStr)
  | pathsChanged (paths : List JSStr) (changes : List FilesMultitoolChangeEvent)
  deriving DecidableEq

/-- Emitting `file-changed` also fires the constructor-wired listener that
derives `file-added` / `file-deleted` / `file-renamed`. -/
def emitFileChanged (p : JSStr) (ch : FilesMultitoolChangeEvent) : List Ev :=
  Ev.fileChanged p ch ::
    (match ch.action with
     | .added => [Ev.fileAdded p]
     | .deleted => [Ev.fileDeleted p]
     | .renamed => [Ev.fileRenamed p ch.oldPath]
     | .modified => [])

/-- Emitting `directory-changed`, with the wired derived events. -/
def emitDirChanged (p : JSStr) (ch : FilesMultitoolChangeEvent) : List Ev :=
  Ev.dirChanged p ch ::
    (match ch.action with
     | .added => [Ev.dirAdded p]
     | .deleted => [Ev.dirDeleted p]
     | .renamed => [Ev.dirRenamed p ch.oldPath]
     | .modified => [])

/-- First-match association lookup in a PathMap (JS `object[key]`). -/
def lookupPM (m : PathMap) (k : JSStr) : Option FileStat :=
  (m.find? (fun kv => kv.1 == k)).map Prod.snd

/-- `FilesMultitool._massEmit`, as the list of events it emits, in order. -/
def massEmit (action : ChangeAction) (path : JSStr) (pathStat : FileStat)
    (pathMap : Option PathMap) (oldPath : Option JSStr) (oldStat : Option FileStat)
    (oldPathMap : Option PathMap) : List Ev :=
  let rootChange : FilesMultitoolChangeEvent :=
    { path := path
      stat := some pathStat
      oldPath := if action = .renamed then oldPath else none
      oldStat := if action = .renamed then oldStat else none
      action := action }
  if !pathStat.isDirectory then
    emitFileChanged path rootChange ++ [Ev.pathsChanged [path] [rootChange]]
  else
    match pathMap with
    | none => []
    | some pm =>
      let oldPaths : List JSStr :=
        match oldPath with
        | some op => if op.isEmpty then [] else op :: (oldPathMap.getD []).map Prod.fst
        | none => []
      let getOldPath : JSStr → Option JSStr := fun newPath =>
        let res := replaceFirst newPath path (oldPath.getD [])
        if oldPaths.contains res then some res else none
      let perChild := pm.map (fun kv =>
        let change : FilesMultitoolChangeEvent :=
          { path := kv.1
            stat := some kv.2
            oldPath := if action = .renamed then getOldPath kv.1 else none
            oldStat :=
              if action = .renamed then
                lookupPM (oldPathMap.getD []) ((getOldPath kv.1).getD [])
              else none
            action := action }
        (change,
         if kv.2.isDirectory then emitDirChanged kv.1 change
         else emitFileChanged kv.1 change))
      (perChild.map Prod.snd).flatten
        ++ emitDirChanged path rootChange
        ++ [Ev.pathsChanged (path :: pm.map Prod.fst) (rootChange :: perChild.map Prod.fst)]

/-- JS object assignment `m[k] = v`: update in place or append. -/
def objSet (m : PathMap) (k : JSStr) (v : FileStat) : PathMap :=
  if m.any (fun kv => kv.1 == k) then
    m.map (fun kv => if kv.1 == k then (kv.1, v) else kv)
  else m ++ [(k, v)]

/-- JS `Object.assign(m, kvs)`. -/
def objAssign (m : PathMap) (kvs : PathMap) : PathMap :=
  kvs.foldl (fun acc kv => objSet acc kv.1 kv.2) m

mutual

/-- `FilesMultitool.list`: direct children, recursing into subdirectories
when `recursive` is set. `fuel` bounds the recursion depth. -/
def listO (A : Adaptor σ) : Nat → JSStr → Bool → σ → σ × Except Err PathMap
  | 0, _, _, st => (st, .error errFuel)
  | fuel + 1, rawPath, recursive, st =>
    match cleanPath rawPath with
    | .error e => (st, .error e)
    | .ok path =>
      match A.list path st with
      | (st1, .error e) => (st1, .error e)
      | (st1, .ok root) => listEntries A fuel recursive path root [] st1
termination_by fuel rawPath recursive st => (fuel, 0)

/-- The entry loop of `FilesMultitool.list`. -/
def listEntries (A : Adaptor σ) (fuel : Nat) (recursive : Bool) (path : JSStr) :
    List (JSStr × FileStat) → PathMap → σ → σ × Except Err PathMap
  | [], acc, st => (st, .ok acc)
  | kv :: rest, acc, st =>
    if kv.1 == path then listEntries A fuel recursive path rest acc st
    else
      let acc1 := objSet acc kv.1 kv.2
      if kv.2.isDirectory && recursive then
        match listO A fuel kv.2.path recursive st with
        | (st1, .error e) => (st1, .error e)
        | (st1, .ok children) =>
          listEntries A fuel recursive path rest (objAssign acc1 children) st1
      else listEntries A fuel recursive path rest acc1 st
termination_by entries acc st => (fuel, entries.length + 1)

end

/-- `FilesMultitool.writeFile` (byte-payload form), returning the new state,
the events emitted and the result. -/
def writeFileO (A : Adaptor σ) (rawPath : JSStr) (content : List Nat)
    (st : σ) (evs : List Ev) : (σ × List Ev) × Except Err Unit :=
  match cleanPath rawPath with
  | .error e => ((st, evs), .error e)
  | .ok path =>
    match A.stat path st with
    | (st1, .error e) => ((st1, evs), .error e)
    | (st1, .ok stat0) =>
      if stat0.elim false (·.isDirectory) then ((st1, evs), .error errWriteDir)
      else
        let parentPath := parentOfPath path
        match (if !parentPath.isEmpty then A.mkdir parentPath st1 else (st1, .ok ())) with
        | (st2, .error e) => ((st2, evs), .error e)
        | (st2, .ok _) =>
          match A.writeFile path content st2 with
          | (st3, .error e) => ((st3, evs), .error e)
          | (st3, .ok _) =>
            match (match stat0 with
                   | some s => (st3, Except.ok (some s))
                   | none => A.stat path st3) with
            | (st4, .error e) => ((st4, evs), .error e)
            | (st4, .ok chStat) =>
              let change : FilesMultitoolChangeEvent :=
                { path := path
                  stat := chStat
                  oldPath := none
                  oldStat := none
                  action := if stat0.isSome then .modified else .added }
              ((st4, evs ++ emitFileChanged path change ++ [Ev.pathsChanged [path] [change]]),
               .ok ())

/-- `FilesMultitool.mkdir`. -/
def mkdirO (A : Adaptor σ) (rawPath : JSStr) (st : σ) (evs : List Ev) :
    (σ × List Ev) × Except Err Unit :=
  match cleanPath rawPath with
  | .error e => ((st, evs), .error e)
  | .ok path =>
    match A.stat path st with
    | (st1, .error e) => ((st1, evs), .error e)
    | (st1, .ok stat0) =>
      match stat0 with
      | some _ => ((st1, evs), .error errDirExists)
      | none =>
        match A.mkdir path st1 with
        | (st2, .error e) => ((st2, evs), .error e)
        | (st2, .ok _) =>
          match A.stat path st2 with
          | (st3, .error e) => ((st3, evs), .error e)
          | (st3, .ok statNew) =>
            let change : FilesMultitoolChangeEvent :=
              { path := path
                stat := statNew
                oldPath := none
                oldStat := none
                action := ChangeAction.added }
            ((st3, evs ++ emitDirChanged path change ++ [Ev.pathsChanged [path] [change]]),
             .ok ())

/-- `FilesMultitool.rmdir`. -/
def rmdirO (A : Adaptor σ) (fuel : Nat) (rawPath : JSStr) (recursive : Bool)
    (st : σ) (evs : List Ev) : (σ × List Ev) × Except Err Unit :=
  match cleanPath rawPath with
  | .error e => ((st, evs), .error e)
  | .ok path =>
    match A.stat path st with
    | (st1, .error e) => ((st1, evs), .error e)
    | (st1, .ok stat0) =>
      match stat0 with
      | none => ((st1, evs), .error errDirNotFound)
      | some s =>
        if !s.isDirectory then ((st1, evs), .error errCannotDeleteFile)
        else
          match listO A fuel path recursive st1 with
          | (st2, .error e) => ((st2, evs), .error e)
          | (st2, .ok children) =>
            if !children.isEmpty && !recursive then ((st2, evs), .error errDirNotEmpty)
            else
              match A.rmdir path st2 with
              | (st3, .error e) => ((st3, evs), .error e)
              | (st3, .ok _) =>
                ((st3, evs ++ massEmit .deleted path s (some children) none none none),
                 .ok ())

/-! ### String lemmas -/

/-- Nonempty segments of a path. -/
def nseg (p : JSStr) : List JSStr := (splitSlash p).filter (fun s => !s.isEmpty)

theorem splitSlash_ne_nil (p : JSStr) : splitSlash p ≠ [] := by
  cases p with
  | nil => simp [splitSlash]
  | cons c rest =>
    simp only [splitSlash]
    by_cases hc : c = '/'
    · simp [hc]
    · simp only [if_neg hc]
      cases h : splitSlash rest <;> simp

theorem splitSlash_cons_slash (t : JSStr) : splitSlash ('/' :: t) = [] :: splitSlash t := by
  simp [splitSlash]

theorem splitSlash_cons_ne {c : Char} (hc : c ≠ '/') (t : JSStr) :
    splitSlash (c :: t) = (c :: (splitSlash t).headI) :: (splitSlash t).tail := by
  simp only [splitSlash, if_neg hc]
  cases h : splitSlash t with
  | nil => exact absurd h (splitSlash_ne_nil t)
  | cons s ss => simp

theorem collapse_cons_ne {c : Char} (hc : c ≠ '/') (u : JSStr) :
    collapseSlashes (c :: u) = c :: collapseSlashes u := by
  cases u with
  | nil => simp [collapseSlashes]
  | cons d r =>
    simp only [collapseSlashes]
    rw [if_neg]
    rintro ⟨h1, _⟩
    exact hc h1

theorem collapse_cons_slash (t : JSStr) :
    collapseSlashes ('/' :: t) = '/' :: collapseSlashes (t.dropWhile (fun d => d = '/')) := by
  induction t with
  | nil => simp [collapseSlashes]
  | cons d r ih =>
    by_cases hd : d = '/'
    · subst hd
      have hcond : ('/' : Char) = '/' ∧ ('/' : Char) = '/' := ⟨rfl, rfl⟩
      simp only [collapseSlashes, if_pos hcond]
      rw [ih]
      simp [List.dropWhile]
    · simp only [collapseSlashes]
      rw [if_neg (by rintro ⟨_, h2⟩; exact hd h2)]
      simp [List.dropWhile, hd]

theorem collapse_seg {seg : JSStr} (hs : ∀ ch ∈ seg, ch ≠ '/') (rest : JSStr) :
    collapseSlashes (seg ++ rest) = seg ++ collapseSlashes rest := by
  induction seg with
  | nil => simp
  | cons a s ih =>
    have ha : a ≠ '/' := hs a (by simp)
    simp only [List.cons_append]
    rw [collapse_cons_ne ha, ih (fun ch hch => hs ch (by simp [hch]))]

theorem collapse_cons_ex (c : Char) (u : JSStr) :
    ∃ u', collapseSlashes (c :: u) = c :: u' := by
  by_cases hc : c = '/'
  · subst hc; exact ⟨_, collapse_cons_slash u⟩
  · exact ⟨_, collapse_cons_ne hc u⟩

theorem stripTrail_cons {X : JSStr} (hX : X ≠ []) (c : Char) :
    stripTrail (c :: X) = c :: stripTrail X := by
  cases X with
  | nil => exact absurd rfl hX
  | cons d r => simp [stripTrail]

theorem stripTrail_append {y : JSStr} (x : JSStr) (hy : y ≠ []) :
    stripTrail (x ++ y) = x ++ stripTrail y := by
  induction x with
  | nil => simp
  | cons a s ih =>
    have : s ++ y ≠ [] := by simp [hy]
    simp only [List.cons_append]
    rw [stripTrail_cons this, ih]

theorem stripLead_cons_ne {c : Char} (hc : c ≠ '/') (u : JSStr) :
    stripLead (c :: u) = c :: u := by
  simp [stripLead, hc]

theorem nseg_slash (t : JSStr) : nseg ('/' :: t) = nseg t := by
  simp [nseg, splitSlash_cons_slash, List.filter]

theorem nseg_dropWhile (t : JSStr) : nseg (t.dropWhile (fun d => d = '/')) = nseg t := by
  induction t with
  | nil => simp
  | cons d r ih =>
    by_cases hd : d = '/'
    · subst hd
      rw [List.dropWhile_cons_of_pos (by simp), ih, nseg_slash]
    · rw [List.dropWhile_cons_of_neg (by simp [hd])]

theorem splitSlash_headI (u : JSStr) :
    (splitSlash u).headI = u.takeWhile (fun ch => ch ≠ '/') := by
  induction u with
  | nil => simp [splitSlash]
  | cons c rest ih =>
    by_cases hc : c = '/'
    · subst hc; simp [splitSlash_cons_slash, List.takeWhile]
    · rw [splitSlash_cons_ne hc, List.takeWhile_cons_of_pos (by simp [hc])]
      simp [ih]

theorem splitSlash_seg_slash {seg : JSStr} (hs : ∀ ch ∈ seg, ch ≠ '/') (u : JSStr) :
    splitSlash (seg ++ '/' :: u) = seg :: splitSlash u := by
  induction seg with
  | nil => simp [splitSlash_cons_slash]
  | cons a s ih =>
    have ha : a ≠ '/' := hs a (by simp)
    simp only [List.cons_append]
    rw [splitSlash_cons_ne ha, ih (fun ch hch => hs ch (by simp [hch]))]
    simp

theorem splitSlash_nonslash {seg : JSStr} (hs : ∀ ch ∈ seg, ch ≠ '/') :
    splitSlash seg = [seg] := by
  induction seg with
  | nil => simp [splitSlash]
  | cons a s ih =>
    have ha : a ≠ '/' := hs a (by simp)
    rw [splitSlash_cons_ne ha, ih (fun ch hch => hs ch (by simp [hch]))]
    simp

theorem dropWhile_length_le (q : Char → Bool) (l : JSStr) :
    (l.dropWhile q).length ≤ l.length := by
  induction l with
  | nil => simp
  | cons x xs ih =>
    rw [List.dropWhile_cons]
    by_cases hx : q x = true
    · simp only [hx, if_true]
      exact Nat.le_trans ih (by simp)
    · simp [hx]

theorem dropWhile_head_false {q : Char → Bool} {l r : JSStr} {a : Char}
    (h : l.dropWhile q = a :: r) : q a = false := by
  induction l with
  | nil => simp at h
  | cons x xs ih =>
    rw [List.dropWhile_cons] at h
    by_cases hx : q x = true
    · simp only [hx, if_true] at h
      exact ih h
    · simp only [hx, if_false] at h
      cases h
      simpa using hx

theorem takeWhile_mem_pred {q : Char → Bool} {l : JSStr} {a : Char}
    (h : a ∈ l.takeWhile q) : q a = true := by
  induction l with
  | nil => simp at h
  | cons x xs ih =>
    rw [List.takeWhile_cons] at h
    by_cases hx : q x = true
    · simp only [hx, if_true, List.mem_cons] at h
      rcases h with h | h
      · subst h; exact hx
      · exact ih h
    · simp [hx] at h

theorem stripTrail_nonslash {s : JSStr} (hs : ∀ ch ∈ s, ch ≠ '/') : stripTrail s = s := by
  induction s with
  | nil => rfl
  | cons a t ih =>
    cases t with
    | nil =>
      have := hs a (by simp)
      simp [stripTrail, this]
    | cons b u =>
      rw [stripTrail_cons (by simp)]
      rw [ih (fun ch hch => hs ch (by simp [hch]))]

theorem joinSegs_cons_cons (s z : JSStr) (zs : List JSStr) :
    joinSegs (s :: z :: zs) = s ++ '/' :: joinSegs (z :: zs) := by
  simp [joinSegs]

theorem joinSegs_splitSlash (p : JSStr) : joinSegs (splitSlash p) = p := by
  induction p with
  | nil => rfl
  | cons c t ih =>
    by_cases hc : c = '/'
    · subst hc
      rw [splitSlash_cons_slash]
      cases hS : splitSlash t with
      | nil => exact absurd hS (splitSlash_ne_nil t)
      | cons s ss =>
        rw [joinSegs_cons_cons]
        rw [hS] at ih
        simp [ih]
    · rw [splitSlash_cons_ne hc]
      cases hS : splitSlash t with
      | nil => exact absurd hS (splitSlash_ne_nil t)
      | cons s ss =>
        rw [hS] at ih
        cases ss with
        | nil =>
          simp only [List.headI, List.tail]
          simp only [joinSegs] at ih ⊢
          simp [ih]
        | cons s2 ss2 =>
          simp only [List.headI, List.tail]
          rw [joinSegs_cons_cons] at ih ⊢
          simp only [List.cons_append]
          rw [ih]

/-- `stripSlashes (collapseSlashes p)` joins exactly the nonempty segments of
`p`: repeated separators are collapsed and leading/trailing separators
stripped. -/
theorem stripSlashes_collapse :
    ∀ n (p : JSStr), p.length ≤ n → stripSlashes (collapseSlashes p) = joinSegs (nseg p) := by
  intro n
  induction n with
  | zero =>
    intro p hp
    have : p = [] := List.length_eq_zero.mp (Nat.le_zero.mp hp)
    subst this
    rfl
  | succ n ih =>
    intro p hp
    cases p with
    | nil => rfl
    | cons c t =>
      by_cases hc : c = '/'
      · subst hc
        rw [collapse_cons_slash]
        show stripTrail (stripLead ('/' :: collapseSlashes (t.dropWhile (fun d => d = '/')))) = _
        rw [show stripLead ('/' :: collapseSlashes (t.dropWhile (fun d => d = '/'))) =
              collapseSlashes (t.dropWhile (fun d => d = '/')) by simp [stripLead]]
        have hlen : (t.dropWhile (fun d => d = '/')).length ≤ n := by
          have h1 := dropWhile_length_le (fun d => decide (d = '/')) t
          simp only [List.length_cons] at hp
          omega
        cases hX : t.dropWhile (fun d => d = '/') with
        | nil =>
          rw [show collapseSlashes ([] : JSStr) = [] from rfl]
          rw [show stripTrail ([] : JSStr) = [] from rfl]
          rw [nseg_slash t, ← nseg_dropWhile t, hX]
          rfl
        | cons e u' =>
          have he : e ≠ '/' := by
            have := dropWhile_head_false hX
            simpa using this
          obtain ⟨X', hX'⟩ := collapse_cons_ex e u'
          have hstrip : stripLead (collapseSlashes (e :: u')) = collapseSlashes (e :: u') := by
            rw [hX']
            exact stripLead_cons_ne he _
          have h0 := ih _ hlen
          rw [hX] at h0
          calc stripTrail (collapseSlashes (e :: u'))
              = stripTrail (stripLead (collapseSlashes (e :: u'))) := by rw [hstrip]
            _ = joinSegs (nseg (e :: u')) := h0
            _ = joinSegs (nseg ('/' :: t)) := by
                rw [nseg_slash, ← nseg_dropWhile t, hX]
      · have hseg : c :: t = (c :: t).takeWhile (fun ch => ch ≠ '/') ++
            (c :: t).dropWhile (fun ch => ch ≠ '/') :=
          (List.takeWhile_append_dropWhile _ _).symm
        set seg := (c :: t).takeWhile (fun ch => ch ≠ '/') with hsegdef
        set rest := (c :: t).dropWhile (fun ch => ch ≠ '/') with hrestdef
        have hsegne : ∀ ch ∈ seg, ch ≠ '/' := by
          intro ch hch
          have := takeWhile_mem_pred hch
          simpa using this
        have hseghead : seg = c :: t.takeWhile (fun ch => ch ≠ '/') := by
          rw [hsegdef, List.takeWhile_cons_of_pos (by simpa using hc)]
        cases hr : rest with
        | nil =>
          have hp' : c :: t = seg := by rw [hseg, hr, List.append_nil]
          have hcol : collapseSlashes seg = seg := by
            have h0 := collapse_seg hsegne ([] : JSStr)
            rw [List.append_nil] at h0
            rw [show collapseSlashes ([] : JSStr) = [] from rfl, List.append_nil] at h0
            exact h0
          rw [hp', hcol]
          show stripTrail (stripLead seg) = _
          rw [hseghead, stripLead_cons_ne hc, ← hseghead]
          rw [stripTrail_nonslash hsegne]
          have hn : nseg seg = [seg] := by
            simp only [nseg]
            rw [splitSlash_nonslash hsegne]
            simp [hseghead]
          rw [hn]
          rfl
        | cons r0 u =>
          have hr0 : r0 = '/' := by
            have h0 := dropWhile_head_false hr
            simpa using h0
          have hsplit2 : c :: t = seg ++ '/' :: u := by rw [hseg, hr, hr0]
          have hlenu : (u.dropWhile (fun d => d = '/')).length ≤ n := by
            have h1 := dropWhile_length_le (fun d => decide (d = '/')) u
            have h2 : t.length + 1 = seg.length + (u.length + 1) := by
              have h3 := congrArg List.length hsplit2
              simpa using h3
            simp only [List.length_cons] at hp
            omega
          have hslead : ∀ z : JSStr, stripLead (seg ++ z) = seg ++ z := by
            intro z
            rw [hseghead]
            simp only [List.cons_append]
            exact stripLead_cons_ne hc _
          have hcol2 : collapseSlashes (c :: t) =
              seg ++ '/' :: collapseSlashes (u.dropWhile (fun d => d = '/')) := by
            rw [hsplit2, collapse_seg hsegne, collapse_cons_slash]
          have hnseg : nseg (c :: t) = seg :: nseg u := by
            rw [hsplit2]
            simp only [nseg]
            rw [splitSlash_seg_slash hsegne]
            rw [List.filter_cons]
            have : (!seg.isEmpty) = true := by rw [hseghead]; simp
            rw [this]
            simp
          rw [hcol2, hnseg]
          show stripTrail (stripLead _) = _
          rw [hslead]
          cases hdu : u.dropWhile (fun d => d = '/') with
          | nil =>
            rw [show collapseSlashes ([] : JSStr) = [] from rfl]
            rw [stripTrail_append seg (by simp)]
            rw [show stripTrail ['/'] = [] from rfl, List.append_nil]
            have hnu : nseg u = [] := by
              rw [← nseg_dropWhile u, hdu]
              rfl
            rw [hnu]
            rfl
          | cons e u' =>
            have he : e ≠ '/' := by
              have h0 := dropWhile_head_false hdu
              simpa using h0
            obtain ⟨X', hX'⟩ := collapse_cons_ex e u'
            have hcne : collapseSlashes (e :: u') ≠ [] := by rw [hX']; simp
            rw [stripTrail_append seg (by simp)]
            rw [stripTrail_cons hcne]
            have hstrip : stripTrail (collapseSlashes (e :: u')) =
                stripSlashes (collapseSlashes (e :: u')) := by
              show _ = stripTrail (stripLead _)
              rw [hX', stripLead_cons_ne he]
            rw [hstrip]
            rw [hdu] at hlenu
            rw [ih _ hlenu]
            have hnu : nseg u = nseg (e :: u') := by rw [← nseg_dropWhile u, hdu]
            rw [← hnu]
            cases hz : nseg u with
            | nil =>
              exfalso
              rw [hnu] at hz
              simp only [nseg] at hz
              rw [splitSlash_cons_ne he] at hz
              rw [List.filter_cons] at hz
              simp at hz
            | cons z zs =>
              rw [joinSegs_cons_cons]

theorem isSub_weaken {pat rest : JSStr} (c : Char) (h : isSub pat rest = true) :
    isSub pat (c :: rest) = true := by
  simp only [isSub]
  rw [h]
  simp

theorem isPre_takeWhile (q : Char → Bool) (u : JSStr) : isPre (u.takeWhile q) u = true := by
  induction u with
  | nil => rfl
  | cons c r ih =>
    rw [List.takeWhile_cons]
    by_cases hq : q c = true
    · simp only [hq, if_true]
      simp [isPre, ih]
    · simp only [hq, if_false]
      rfl

theorem mem_splitSlash_isSub (p : JSStr) (s : JSStr) (h : s ∈ splitSlash p) :
    isSub s p = true := by
  induction p generalizing s with
  | nil =>
    simp [splitSlash] at h
    subst h
    rfl
  | cons c rest ih =>
    by_cases hc : c = '/'
    · subst hc
      rw [splitSlash_cons_slash] at h
      rcases List.mem_cons.mp h with h | h
      · subst h
        rfl
      · exact isSub_weaken _ (ih _ h)
    · rw [splitSlash_cons_ne hc] at h
      rcases List.mem_cons.mp h with h | h
      · subst h
        simp only [isSub]
        have : isPre (c :: (splitSlash rest).headI) (c :: rest) = true := by
          simp only [isPre]
          rw [splitSlash_headI]
          simp [isPre_takeWhile]
        rw [this]
        simp
      · exact isSub_weaken _ (ih _ (List.mem_of_mem_tail h))

/-- C9: orchestrator path normalization (`cleanPath`) maps empty input to the
root path `""`, fails with the invalid-path error on any path containing a
parent-directory segment `..`, and otherwise collapses repeated separators and
strips leading/trailing separators: the result joins exactly the nonempty
segments of the input. -/
theorem C9_cleanPath_normalization :
    cleanPath [] = Except.ok []
    ∧ (∀ p : JSStr, ['.', '.'] ∈ splitSlash p → cleanPath p = Except.error errInvalidPath)
    ∧ (∀ p : JSStr, isSub ['.', '.'] p = false →
        cleanPath p = Except.ok (joinSegs (nseg p))) := by
  refine ⟨rfl, ?_, ?_⟩
  · intro p hmem
    have hsub : isSub ['.', '.'] p = true := mem_splitSlash_isSub p _ hmem
    cases p with
    | nil => simp [splitSlash] at hmem
    | cons a q =>
      simp only [cleanPath, List.isEmpty]
      rw [if_neg (by simp)]
      rw [if_pos hsub]
  · intro p hns
    cases p with
    | nil => rfl
    | cons a q =>
      simp only [cleanPath, List.isEmpty]
      rw [if_neg (by simp)]
      rw [if_neg (by simp [hns])]
      rw [stripSlashes_collapse (a :: q).length _ (Nat.le_refl _)]

theorem C9_cleanPath_normalization_witness :
    cleanPath ("a/../b".data) = Except.error errInvalidPath
    ∧ cleanPath ("//a//b/".data) = Except.ok ("a/b".data) := by
  constructor
  · exact C9_cleanPath_normalization.2.1 _ (by decide)
  · have h := C9_cleanPath_normalization.2.2 ("//a//b/".data) (by decide)
    rw [h]
    rfl

/-- C3: generic `move` is exactly `copy(source, destination, recursive=true)`
followed by deletion of the source — `rmdir` when the source stat is a
directory, `deleteFile` otherwise. It is not atomic: when the deletion step
fails after the copy succeeded, `move` returns that error and its final state
is exactly the post-copy/post-failed-deletion state (no rollback of the copy),
so both source and destination remain as the failed deletion left them. -/
theorem C3_move_copy_then_delete (σ : Type) (A : Adaptor σ) (s d : JSStr)
    (st st0 st1 : σ) (srcStat : Option FileStat)
    (hstat : A.stat s st = (st0, Except.ok srcStat))
    (hcopy : Adaptor.copy A s d true st0 = (st1, Except.ok ())) :
    (∀ st2 e, (if srcStat.elim false (·.isDirectory) then A.rmdir s st1
               else A.deleteFile s st1) = (st2, Except.error e) →
      Adaptor.move A s d st = (st2, Except.error e))
    ∧ (∀ st2, (if srcStat.elim false (·.isDirectory) then A.rmdir s st1
               else A.deleteFile s st1) = (st2, Except.ok ()) →
      Adaptor.move A s d st = (st2, Except.ok ())) := by
  constructor
  · intro st2 e hdel
    unfold Adaptor.move
    rw [hstat]
    dsimp only
    rw [hcopy]
    dsimp only
    by_cases hdir : srcStat.elim false (·.isDirectory) = true
    · rw [if_pos hdir] at hdel ⊢
      exact hdel
    · rw [if_neg hdir] at hdel ⊢
      exact hdel
  · intro st2 hdel
    unfold Adaptor.move
    rw [hstat]
    dsimp only
    rw [hcopy]
    dsimp only
    by_cases hdir : srcStat.elim false (·.isDirectory) = true
    · rw [if_pos hdir] at hdel ⊢
      exact hdel
    · rw [if_neg hdir] at hdel ⊢
      exact hdel

/-- An adaptor whose delete operations always fail: used to exhibit the
non-atomic failure of `move` after a completed copy. -/
def failingDeleteAdaptor : Adaptor Nat where
  stat := fun p st => (st, Except.ok (some
    { path := p, parentPath := [], isDirectory := false, isFile := true,
      size := 0, modifiedTime := none, createdTime := none }))
  readFile := fun _ st => (st, Except.ok [])
  writeFile := fun _ _ st => (st, Except.ok ())
  deleteFile := fun _ st => (st, Except.error ("PermissionDenied".data))
  list := fun _ st => (st, Except.ok [])
  mkdir := fun _ st => (st, Except.ok ())
  rmdir := fun _ st => (st, Except.error ("PermissionDenied".data))
  copyFile := fun _ _ _ st => (st, Except.ok ())
  copyDirectory := fun _ _ _ st => (st, Except.ok ())

theorem C3_move_copy_then_delete_witness :
    Adaptor.move failingDeleteAdaptor ("a.txt".data) ("b".data) 0
      = (0, Except.error ("PermissionDenied".data)) :=
  (C3_move_copy_then_delete Nat failingDeleteAdaptor ("a.txt".data) ("b".data)
    0 0 0 _ rfl rfl).1 0 _ rfl

/-- C8: the generic copy classifies its destination as a directory target
exactly when it ends with a separator or its final segment contains no `.`
(`guessIfFolderPath`), and copying a directory source to a destination not so
classified fails with the dir-to-file error without invoking the
directory-copy primitive (the result is the same for every choice of that
primitive). -/
theorem C8_copy_dir_to_file_guard :
    (∀ p : JSStr, guessIfFolderPath p =
      ((p.getLast? == some '/') || !(isSub ['.'] (lastSeg p))))
    ∧ (∀ (σ : Type) (A : Adaptor σ)
        (f g : JSStr → JSStr → Bool → σ → σ × Except Err Unit)
        (path newPath : JSStr) (recursive : Bool) (st st1 st2 : σ) (srcStat : FileStat),
        A.stat path st = (st1, Except.ok (some srcStat)) →
        srcStat.isDirectory = true →
        guessIfFolderPath newPath = false →
        A.mkdir (joinSegs (splitSlash newPath).dropLast) st1 = (st2, Except.ok ()) →
        Adaptor.copy { A with copyDirectory := f } path newPath recursive st
          = (st2, Except.error errDirToFile)
        ∧ Adaptor.copy { A with copyDirectory := f } path newPath recursive st
          = Adaptor.copy { A with copyDirectory := g } path newPath recursive st) := by
  constructor
  · intro p
    rfl
  · intro σ A f g path newPath recursive st st1 st2 srcStat hstat hdir hguess hmk
    have key : ∀ h : JSStr → JSStr → Bool → σ → σ × Except Err Unit,
        Adaptor.copy { A with copyDirectory := h } path newPath recursive st
          = (st2, Except.error errDirToFile) := by
      intro h
      unfold Adaptor.copy
      dsimp only
      rw [hguess]
      rw [show ({ A with copyDirectory := h } : Adaptor σ).stat = A.stat from rfl]
      rw [hstat]
      dsimp only
      rw [show ({ A with copyDirectory := h } : Adaptor σ).mkdir = A.mkdir from rfl]
      rw [if_neg (by simp)]
      rw [hmk]
      dsimp only [Option.elim]
      rw [hdir]
      rfl
    exact ⟨key f, (key f).trans (key g).symm⟩

/-- An adaptor whose stat reports a directory at every path: used to exhibit
the dir-to-file guard of the generic copy. -/
def dirSourceAdaptor : Adaptor Nat where
  stat := fun p st => (st, Except.ok (some
    { path := p, parentPath := [], isDirectory := true, isFile := false,
      size := 0, modifiedTime := none, createdTime := none }))
  readFile := fun _ st => (st, Except.ok [])
  writeFile := fun _ _ st => (st, Except.ok ())
  deleteFile := fun _ st => (st, Except.ok ())
  list := fun _ st => (st, Except.ok [])
  mkdir := fun _ st => (st, Except.ok ())
  rmdir := fun _ st => (st, Except.ok ())
  copyFile := fun _ _ _ st => (st, Except.ok ())
  copyDirectory := fun _ _ _ st => (st, Except.ok ())

theorem C8_copy_dir_to_file_guard_witness :
    Adaptor.copy
        { dirSourceAdaptor with copyDirectory := fun _ _ _ st => (st, Except.ok ()) }
        ("a".data) ("b.txt".data) true 0
      = (0, Except.error errDirToFile)
    ∧ guessIfFolderPath ("b.txt".data) =
        ((("b.txt".data).getLast? == some '/') || !(isSub ['.'] (lastSeg ("b.txt".data)))) :=
  ⟨((C8_copy_dir_to_file_guard.2 Nat dirSourceAdaptor
      (fun _ _ _ st => (st, Except.ok ())) (fun _ _ _ st => (st, Except.error []))
      ("a".data) ("b.txt".data) true 0 0 0 _ rfl rfl (by decide) rfl).1),
   C8_copy_dir_to_file_guard.1 ("b.txt".data)⟩

/-! ### Store lemmas -/

theorem getItem_path {p : JSStr} {st : Store} {s : IndexedDBFileStat}
    (h : getItem p st = some s) : s.path = p := by
  induction st with
  | nil => simp [getItem] at h
  | cons a tl ih =>
    simp only [getItem] at h
    by_cases ha : a.path = p
    · rw [if_pos ha] at h
      cases h
      exact ha
    · rw [if_neg ha] at h
      exact ih h

theorem getItem_removeItem (p q : JSStr) (st : Store) :
    getItem p (removeItem q st) = if p = q then none else getItem p st := by
  induction st with
  | nil => simp [getItem, removeItem]
  | cons a tl ih =>
    simp only [getItem, removeItem]
    by_cases hq : a.path = q
    · rw [if_pos hq, ih]
      by_cases hp : p = q
      · rw [if_pos hp, if_pos hp]
      · rw [if_neg hp, if_neg hp, if_neg (by rw [hq]; exact fun hc => hp hc.symm)]
    · rw [if_neg hq]
      simp only [getItem]
      by_cases hap : a.path = p
      · rw [if_pos hap, if_pos hap]
        rw [if_neg (by rw [← hap]; exact hq)]
      · rw [if_neg hap, if_neg hap, ih]

theorem getItem_putStore (r : IndexedDBFileStat) (st : Store) (p : JSStr) :
    getItem p (putStore r st) = if p = r.path then some r else getItem p st := by
  unfold putStore
  have happ : ∀ (l1 l2 : Store), getItem p (l1 ++ l2) =
      (getItem p l1).elim (getItem p l2) some := by
    intro l1 l2
    induction l1 with
    | nil => simp [getItem]
    | cons a tl ih =>
      simp only [List.cons_append, getItem]
      by_cases hap : a.path = p
      · rw [if_pos hap, if_pos hap]
        rfl
      · rw [if_neg hap, if_neg hap]
        exact ih
  rw [happ, getItem_removeItem]
  by_cases hp : p = r.path
  · rw [if_pos hp, if_pos hp]
    dsimp only [Option.elim]
    simp only [getItem]
    rw [if_pos hp.symm]
  · rw [if_neg hp, if_neg hp]
    cases hg : getItem p st with
    | none =>
      dsimp only [Option.elim]
      simp only [getItem]
      rw [if_neg (fun hc : r.path = p => hp hc.symm)]
    | some v => rfl

theorem mem_removeItem {r : IndexedDBFileStat} {q : JSStr} {st : Store}
    (h : r ∈ removeItem q st) : r ∈ st ∧ ¬ r.path = q := by
  induction st with
  | nil => simp [removeItem] at h
  | cons a tl ih =>
    simp only [removeItem] at h
    by_cases ha : a.path = q
    · rw [if_pos ha] at h
      exact ⟨List.mem_cons_of_mem _ (ih h).1, (ih h).2⟩
    · rw [if_neg ha] at h
      rcases List.mem_cons.mp h with h | h
      · subst h
        exact ⟨List.mem_cons_self _ _, ha⟩
      · exact ⟨List.mem_cons_of_mem _ (ih h).1, (ih h).2⟩

theorem mem_putStore {r w : IndexedDBFileStat} {st : Store} (h : r ∈ putStore w st) :
    r = w ∨ (r ∈ st ∧ ¬ r.path = w.path) := by
  unfold putStore at h
  rcases List.mem_append.mp h with h | h
  · exact Or.inr (mem_removeItem h)
  · left
    simpa using h

theorem putItem_snd (s : IndexedDBFileStat) (st : Store) :
    ∃ ct, (putItem s st).2 = { s with createdTime := ct } := by
  unfold putItem
  cases hg : getItem s.path st with
  | none => exact ⟨s.createdTime, rfl⟩
  | some ex =>
    dsimp only
    by_cases hd : ex.deletedAt.isSome = true
    · rw [if_pos hd]
      exact ⟨s.createdTime, rfl⟩
    · rw [if_neg hd]
      exact ⟨ex.createdTime, rfl⟩

theorem putItem_path (s : IndexedDBFileStat) (st : Store) :
    (putItem s st).2.path = s.path := by
  obtain ⟨ct, h⟩ := putItem_snd s st
  rw [h]

theorem getItem_putItem (s : IndexedDBFileStat) (st : Store) (p : JSStr) :
    getItem p (putItem s st).1 =
      if p = s.path then some (putItem s st).2 else getItem p st := by
  unfold putItem
  cases hg : getItem s.path st with
  | none =>
    dsimp only
    rw [getItem_putStore]
  | some ex =>
    dsimp only
    by_cases hd : ex.deletedAt.isSome = true
    · rw [if_pos hd]
      dsimp only
      rw [getItem_putStore]
      by_cases hp : p = s.path
      · rw [if_pos hp, if_pos hp]
      · rw [if_neg hp, if_neg hp, getItem_removeItem, if_neg hp]
    · rw [if_neg hd]
      dsimp only
      rw [getItem_putStore]

theorem mem_putItem {r : IndexedDBFileStat} (s : IndexedDBFileStat) (st : Store)
    (h : r ∈ (putItem s st).1) :
    r = (putItem s st).2 ∨ (r ∈ st ∧ ¬ r.path = s.path) := by
  unfold putItem at h ⊢
  cases hg : getItem s.path st with
  | none =>
    rw [hg] at h
    dsimp only at h ⊢
    rcases mem_putStore h with h | h
    · exact Or.inl h
    · exact Or.inr h
  | some ex =>
    rw [hg] at h
    dsimp only at h ⊢
    by_cases hd : ex.deletedAt.isSome = true
    · rw [if_pos hd] at h ⊢
      dsimp only at h ⊢
      rcases mem_putStore h with h | h
      · exact Or.inl h
      · exact Or.inr ⟨(mem_removeItem h.1).1, h.2⟩
    · rw [if_neg hd] at h ⊢
      dsimp only at h ⊢
      rcases mem_putStore h with h | h
      · exact Or.inl h
      · exact Or.inr ⟨h.1, h.2⟩

/-- C6: on the IndexedDB backend, `writeFile(p, b)` followed by `readFile(p)`
returns exactly the bytes `b` (content survives the base64 round trip). -/
theorem C6_write_then_read (p : JSStr) (b : List Nat) (now : Nat) (st : Store)
    (hb : ∀ x ∈ b, x < 256) :
    readFileA p (writeFileA p b now st) = Except.ok b := by
  unfold writeFileA readFileA
  obtain ⟨ct, h2⟩ := putItem_snd (writeRecord p b now) st
  rw [getItem_putItem, if_pos (show p = (writeRecord p b now).path from rfl), h2]
  dsimp only [writeRecord]
  simp [b64_roundtrip b hb]

theorem C6_write_then_read_witness :
    readFileA ("a/b.txt".data) (writeFileA ("a/b.txt".data) [104, 105] 7 [])
      = Except.ok [104, 105] :=
  C6_write_then_read ("a/b.txt".data) [104, 105] 7 [] (by decide)

/-- C7: after a successful `deleteFile(p)` on the IndexedDB backend, `stat(p)`
is null and no `list` result (in particular `list(parentOf(p))`) contains `p`,
yet a record for `p` is still physically stored, tombstoned. -/
theorem mem_listItems {r : IndexedDBFileStat} {q : JSStr} {l : Store}
    (h : r ∈ listItems q l) : r ∈ l ∧ r.parentPath = q := by
  induction l with
  | nil => simp [listItems] at h
  | cons a tl ih =>
    simp only [listItems] at h
    by_cases ha : a.parentPath = q
    · rw [if_pos ha] at h
      rcases List.mem_cons.mp h with h | h
      · subst h
        exact ⟨List.mem_cons_self _ _, ha⟩
      · exact ⟨List.mem_cons_of_mem _ (ih h).1, (ih h).2⟩
    · rw [if_neg ha] at h
      exact ⟨List.mem_cons_of_mem _ (ih h).1, (ih h).2⟩

theorem C7_delete_soft (p : JSStr) (now : Nat) (st : Store) (s : IndexedDBFileStat)
    (hget : getItem p st = some s) (hlive : s.deletedAt = none) :
    (deleteFileA p now st).2 = Except.ok ()
    ∧ statA p (deleteFileA p now st).1 = none
    ∧ (∀ q : JSStr, p ∉ (listA q (deleteFileA p now st).1).map Prod.fst)
    ∧ (∃ r, getItem p (deleteFileA p now st).1 = some r ∧ r.deletedAt = some now) := by
  have hpath : s.path = p := getItem_path hget
  have hred : deleteFileA p now st =
      ((putItem { s with deletedAt := some now } st).1, Except.ok ()) := by
    unfold deleteFileA
    rw [hget]
    dsimp only
    rw [if_neg (by rw [hlive]; simp)]
  have hp2 : getItem ({ s with deletedAt := some now } : IndexedDBFileStat).path st
      = some s := by
    rw [show ({ s with deletedAt := some now } : IndexedDBFileStat).path = s.path from rfl,
        hpath]
    exact hget
  have hput2 : (putItem { s with deletedAt := some now } st).2 =
      { s with deletedAt := some now } := by
    unfold putItem
    rw [hp2]
    dsimp only
    rw [if_neg (by rw [hlive]; simp)]
  have hgetp : getItem p (putItem { s with deletedAt := some now } st).1 =
      some { s with deletedAt := some now } := by
    rw [getItem_putItem,
        if_pos (show p = ({ s with deletedAt := some now } : IndexedDBFileStat).path by
          rw [show ({ s with deletedAt := some now } : IndexedDBFileStat).path = s.path
              from rfl, hpath]),
        hput2]
  refine ⟨by rw [hred], ?_, ?_, ?_⟩
  · rw [hred]
    unfold statA
    rw [hgetp]
    simp
  · intro q hmem
    rw [hred] at hmem
    simp only [listA, List.map_map, List.mem_map] at hmem
    obtain ⟨r, hr, hrp⟩ := hmem
    have hrlive := List.of_mem_filter hr
    have hrmem : r ∈ listItems q (putItem { s with deletedAt := some now } st).1 :=
      List.mem_of_mem_filter hr
    have hrst : r ∈ (putItem { s with deletedAt := some now } st).1 :=
      (mem_listItems hrmem).1
    have hrpath : r.path = p := by simpa using hrp
    rcases mem_putItem _ _ hrst with h | h
    · rw [hput2] at h
      subst h
      simp at hrlive
    · exact h.2 (by
        rw [hrpath,
            show ({ s with deletedAt := some now } : IndexedDBFileStat).path = s.path
              from rfl, hpath])
  · exact ⟨{ s with deletedAt := some now }, by rw [hred]; exact hgetp, rfl⟩

theorem C7_delete_soft_witness :
    (deleteFileA ("docs/a.txt".data) 9
        [{ path := ("docs/a.txt".data), parentPath := ("docs".data),
           isDirectory := false, isFile := true, size := 2,
           modifiedTime := some 1, createdTime := some 1,
           content := some [], deletedAt := none }]).2 = Except.ok ()
    ∧ statA ("docs/a.txt".data)
        (deleteFileA ("docs/a.txt".data) 9
          [{ path := ("docs/a.txt".data), parentPath := ("docs".data),
             isDirectory := false, isFile := true, size := 2,
             modifiedTime := some 1, createdTime := some 1,
             content := some [], deletedAt := none }]).1 = none :=
  have h := C7_delete_soft ("docs/a.txt".data) 9
    [{ path := ("docs/a.txt".data), parentPath := ("docs".data),
       isDirectory := false, isFile := true, size := 2,
       modifiedTime := some 1, createdTime := some 1,
       content := some [], deletedAt := none }]
    { path := ("docs/a.txt".data), parentPath := ("docs".data),
      isDirectory := false, isFile := true, size := 2,
      modifiedTime := some 1, createdTime := some 1,
      content := some [], deletedAt := none } (by rfl) rfl
  ⟨h.1, h.2.1⟩

/-- A tombstoned record at path `a` with original `createdTime = 5`. -/
def c1Tomb : IndexedDBFileStat :=
  { path := ("a".data), parentPath := [], isDirectory := false, isFile := true,
    size := 0, modifiedTime := some 1, createdTime := some 5,
    content := some [], deletedAt := some 7 }

/-- C1 (counterexample): writing at time 10 over the tombstoned record whose
original `createdTime` is 5 yields a record whose `createdTime` is the fresh
write time 10, not the tombstoned predecessor's 5 — so `_putItem` does not
inherit `createdTime` from a tombstoned predecessor. -/
theorem C1_revive_counterexample :
    getItem ("a".data) (writeFileA ("a".data) [] 10 [c1Tomb])
      = some (writeRecord ("a".data) [] 10)
    ∧ c1Tomb.deletedAt = some 7
    ∧ c1Tomb.createdTime = some 5
    ∧ (writeRecord ("a".data) [] 10).createdTime = some 10 := by
  refine ⟨?_, rfl, rfl, rfl⟩
  rfl

/-- C1 (amended): writing to a path holding a tombstoned record physically
removes the predecessor as part of that write and stores a fresh record with
the marker cleared, a fresh `modifiedTime` and a fresh `createdTime` (the
predecessor's `createdTime` is not inherited; inheritance happens only when
overwriting a live record). The resulting store holds exactly one record at
the path. -/
theorem C1_revive_amended (p : JSStr) (b : List Nat) (now : Nat) (st : Store)
    (ex : IndexedDBFileStat)
    (hget : getItem p st = some ex) (hdead : ex.deletedAt.isSome = true) :
    writeFileA p b now st = putStore (writeRecord p b now) (removeItem p st)
    ∧ getItem p (writeFileA p b now st) = some (writeRecord p b now)
    ∧ (writeRecord p b now).deletedAt = none
    ∧ (writeRecord p b now).createdTime = some now
    ∧ (writeRecord p b now).modifiedTime = some now
    ∧ (∀ r ∈ writeFileA p b now st, r.path = p → r = writeRecord p b now) := by
  have hw : writeFileA p b now st = putStore (writeRecord p b now) (removeItem p st) := by
    unfold writeFileA putItem
    rw [show (writeRecord p b now).path = p from rfl, hget]
    dsimp only
    rw [if_pos hdead]
  refine ⟨hw, ?_, rfl, rfl, rfl, ?_⟩
  · rw [hw, getItem_putStore,
        if_pos (show p = (writeRecord p b now).path from rfl)]
  · intro r hr hrp
    rw [hw] at hr
    rcases mem_putStore hr with h | h
    · exact h
    · exact absurd hrp ((mem_removeItem h.1).2)

theorem C1_revive_amended_witness :
    writeFileA ("a".data) [] 10 [c1Tomb]
      = putStore (writeRecord ("a".data) [] 10) (removeItem ("a".data) [c1Tomb]) :=
  (C1_revive_amended ("a".data) [] 10 [c1Tomb] c1Tomb rfl rfl).1

/-- C2 (counterexample): at the orchestrator level, the second `mkdir("a")` on
a fresh IndexedDB store fails with "Directory already exists." — `mkdir` twice
in succession is not failure-free there. -/
theorem C2_mkdir_idempotent_counterexample :
    (mkdirO (idb 10 5) ("a".data) [] []).2 = Except.ok ()
    ∧ (mkdirO (idb 10 6) ("a".data)
        (mkdirO (idb 10 5) ("a".data) [] []).1.1
        (mkdirO (idb 10 5) ("a".data) [] []).1.2).2 = Except.error errDirExists := by
  constructor
  · rfl
  · rfl

/-- The successive `partPath` keys visited by the mkdir segment loop. -/
def partPaths : List JSStr → List JSStr → List JSStr
  | _, [] => []
  | done, part :: rest => joinSegs (done ++ [part]) :: partPaths (done ++ [part]) rest

theorem joinSegs_concat (A : List JSStr) (x : JSStr) :
    joinSegs (A ++ [x]) = if A.isEmpty then x else joinSegs A ++ '/' :: x := by
  induction A with
  | nil => simp [joinSegs]
  | cons a tl ih =>
    cases tl with
    | nil => simp [joinSegs]
    | cons b tl2 =>
      have ih' : joinSegs (b :: (tl2 ++ [x])) = joinSegs (b :: tl2) ++ '/' :: x := by
        have h0 := ih
        rw [show ((b :: tl2) ++ [x]) = b :: (tl2 ++ [x]) from rfl] at h0
        rw [h0]
        simp
      rw [show ((a :: b :: tl2) ++ [x]) = a :: b :: (tl2 ++ [x]) from rfl]
      rw [joinSegs_cons_cons, ih']
      rw [if_neg (by simp)]
      rw [joinSegs_cons_cons]
      simp

theorem joinSegs_concat_len (A : List JSStr) (x : JSStr) :
    (joinSegs A).length ≤ (joinSegs (A ++ [x])).length := by
  rw [joinSegs_concat]
  cases A with
  | nil => simp [joinSegs]
  | cons a tl =>
    simp only [List.isEmpty]
    rw [if_neg (by simp)]
    simp

theorem joinSegs_concat_len_lt {A : List JSStr} (hA : ¬ A.isEmpty = true) (x : JSStr) :
    (joinSegs A).length < (joinSegs (A ++ [x])).length := by
  rw [joinSegs_concat, if_neg hA]
  simp

theorem mkdirGo_frame (now : Nat) :
    ∀ (rest done : List JSStr) (st : Store) (x : JSStr),
    (rest ≠ [] → x.length < (joinSegs (done ++ [rest.headI])).length) →
    getItem x (mkdirGo now done rest st) = getItem x st := by
  intro rest
  induction rest with
  | nil =>
    intro done st x _
    rfl
  | cons r rest' ih =>
    intro done st x hx
    have hx0 : x.length < (joinSegs (done ++ [r])).length := by
      have := hx (by simp)
      simpa using this
    have hxne : ¬ x = joinSegs (done ++ [r]) := by
      intro hc
      rw [hc] at hx0
      omega
    simp only [mkdirGo]
    have hstep : ∀ st1 : Store,
        (getItem x ((putItem (mkdirRecord (joinSegs (done ++ [r])) now) st1).1)
          = getItem x st1) := by
      intro st1
      rw [getItem_putItem,
          if_neg (by
            rw [show (mkdirRecord (joinSegs (done ++ [r])) now).path
                = joinSegs (done ++ [r]) from rfl]
            exact hxne)]
    have hnext : rest' ≠ [] →
        x.length < (joinSegs ((done ++ [r]) ++ [rest'.headI])).length := by
      intro _
      calc x.length < (joinSegs (done ++ [r])).length := hx0
        _ ≤ (joinSegs ((done ++ [r]) ++ [rest'.headI])).length := joinSegs_concat_len _ _
    cases hg : getItem (joinSegs (done ++ [r])) st with
    | none =>
      dsimp only
      rw [ih (done ++ [r]) _ x hnext, hstep]
    | some s =>
      dsimp only
      by_cases hd : s.deletedAt.isSome = true
      · rw [if_pos hd]
        rw [ih (done ++ [r]) _ x hnext, hstep]
      · rw [if_neg hd]
        rw [ih (done ++ [r]) _ x hnext]

theorem mkdirGo_live (now : Nat) :
    ∀ (rest done : List JSStr) (st : Store),
    ∀ pp ∈ partPaths done rest,
    ∃ r, getItem pp (mkdirGo now done rest st) = some r ∧ r.deletedAt = none := by
  intro rest
  induction rest with
  | nil =>
    intro done st pp hpp
    simp [partPaths] at hpp
  | cons r rest' ih =>
    intro done st pp hpp
    simp only [partPaths, List.mem_cons] at hpp
    have hframe := mkdirGo_frame now rest' (done ++ [r])
    rcases hpp with hpp | hpp
    · subst hpp
      -- the record written (or already live) at this partPath survives the
      -- recursive call, whose keys are all strictly longer
      have hlt : rest' ≠ [] →
          (joinSegs (done ++ [r])).length <
            (joinSegs ((done ++ [r]) ++ [rest'.headI])).length := by
        intro _
        exact joinSegs_concat_len_lt (by simp) _
      simp only [mkdirGo]
      cases hg : getItem (joinSegs (done ++ [r])) st with
      | none =>
        dsimp only
        rw [hframe _ _ hlt]
        obtain ⟨ct, hct⟩ := putItem_snd (mkdirRecord (joinSegs (done ++ [r])) now) st
        rw [getItem_putItem,
            if_pos (show joinSegs (done ++ [r])
              = (mkdirRecord (joinSegs (done ++ [r])) now).path from rfl), hct]
        exact ⟨_, rfl, rfl⟩
      | some s =>
        dsimp only
        by_cases hd : s.deletedAt.isSome = true
        · rw [if_pos hd]
          rw [hframe _ _ hlt]
          obtain ⟨ct, hct⟩ := putItem_snd (mkdirRecord (joinSegs (done ++ [r])) now) st
          rw [getItem_putItem,
              if_pos (show joinSegs (done ++ [r])
                = (mkdirRecord (joinSegs (done ++ [r])) now).path from rfl), hct]
          exact ⟨_, rfl, rfl⟩
        · rw [if_neg hd]
          rw [hframe _ _ hlt, hg]
          exact ⟨s, rfl, by
            cases hds : s.deletedAt with
            | none => rfl
            | some d => rw [hds] at hd; simp at hd⟩
    · -- deeper partPaths: by the induction hypothesis on the tail
      simp only [mkdirGo]
      cases hg : getItem (joinSegs (done ++ [r])) st with
      | none =>
        dsimp only
        exact ih (done ++ [r]) _ pp hpp
      | some s =>
        dsimp only
        by_cases hd : s.deletedAt.isSome = true
        · rw [if_pos hd]
          exact ih (done ++ [r]) _ pp hpp
        · rw [if_neg hd]
          exact ih (done ++ [r]) _ pp hpp

theorem mkdirGo_skip (now' : Nat) :
    ∀ (rest done : List JSStr) (st : Store),
    (∀ pp ∈ partPaths done rest, ∃ r, getItem pp st = some r ∧ r.deletedAt = none) →
    mkdirGo now' done rest st = st := by
  intro rest
  induction rest with
  | nil =>
    intro done st _
    rfl
  | cons r rest' ih =>
    intro done st hlive
    obtain ⟨s, hs, hsd⟩ := hlive (joinSegs (done ++ [r])) (by simp [partPaths])
    simp only [mkdirGo]
    rw [hs]
    dsimp only
    rw [if_neg (by rw [hsd]; simp)]
    exact ih (done ++ [r]) st (fun pp hpp => hlive pp (by simp [partPaths, hpp]))

/-- C2 (amended): the backend-level `mkdir` of the IndexedDB adaptor is
idempotent — the second call leaves the store exactly as the first left it,
and neither call fails (the adaptor's `mkdir` always returns success). The
orchestrator-level `mkdir`, by contrast, rejects an existing path (see the
counterexample). -/
theorem C2_mkdir_idempotent_amended (p : JSStr) (now now' : Nat) (st : Store)
    (fuel fuel' : Nat) :
    mkdirA p now' (mkdirA p now st) = mkdirA p now st
    ∧ ((idb fuel now).mkdir p st).2 = Except.ok ()
    ∧ ((idb fuel' now').mkdir p (mkdirA p now st)).2 = Except.ok () := by
  refine ⟨?_, rfl, rfl⟩
  unfold mkdirA
  exact mkdirGo_skip now' _ [] _
    (fun pp hpp => mkdirGo_live now _ [] st pp hpp)

theorem isPre_append (x y : JSStr) : isPre x (x ++ y) = true := by
  induction x with
  | nil => rfl
  | cons a s ih => simp [isPre, ih]

theorem replaceFirst_of_isPre {k pre : JSStr} (rep : JSStr) (h : isPre pre k = true) :
    replaceFirst k pre rep = rep ++ k.drop pre.length := by
  cases k with
  | nil =>
    simp only [replaceFirst, if_pos h]
    simp
  | cons c rest =>
    simp only [replaceFirst, if_pos h]

theorem contains_eq_true_iff (l : List JSStr) (x : JSStr) :
    l.contains x = true ↔ x ∈ l := by
  induction l with
  | nil => simp
  | cons a tl ih => simp [List.contains_cons, ih, beq_iff_eq]

/-- The root change record a rename emits. -/
def renameRoot (path oldPath : JSStr) (pathStat oldStat : FileStat) :
    FilesMultitoolChangeEvent :=
  { path := path, stat := some pathStat, oldPath := some oldPath,
    oldStat := some oldStat, action := .renamed }

/-- The change record the spec predicts for a renamed descendant: substitute
the old root prefix for the new root prefix in the descendant's new path and
keep it only if the result is a key of the pre-move snapshot. -/
def renameChildExpected (path oldPath : JSStr) (oldPathMap : PathMap)
    (kv : JSStr × FileStat) : FilesMultitoolChangeEvent :=
  let sub := oldPath ++ kv.1.drop path.length
  { path := kv.1
    stat := some kv.2
    oldPath := if sub ∈ oldPathMap.map Prod.fst then some sub else none
    oldStat := lookupPM oldPathMap (if sub ∈ oldPathMap.map Prod.fst then sub else [])
    action := .renamed }

/-- C4: for a directory rename, `_massEmit` emits one `paths-changed` batch
whose paths and change records list the root first and then one entry per
descendant of the new-path map; each descendant's `oldPath` is the old root
prefix substituted for the new root prefix in its new path, kept only when
that substituted path is a key of the pre-move snapshot and null otherwise. -/
theorem C4_massEmit_rename_batch
    (path oldPath : JSStr) (pathStat oldStat : FileStat)
    (pathMap oldPathMap : PathMap)
    (hdir : pathStat.isDirectory = true)
    (hop : oldPath ≠ [])
    (hkeys : ∀ kv ∈ pathMap, ∃ rest : JSStr, rest ≠ [] ∧ kv.1 = path ++ '/' :: rest) :
    massEmit .renamed path pathStat (some pathMap) (some oldPath) (some oldStat)
        (some oldPathMap)
      = (pathMap.map (fun kv =>
            if kv.2.isDirectory then
              emitDirChanged kv.1 (renameChildExpected path oldPath oldPathMap kv)
            else
              emitFileChanged kv.1 (renameChildExpected path oldPath oldPathMap kv))).flatten
        ++ emitDirChanged path (renameRoot path oldPath pathStat oldStat)
        ++ [Ev.pathsChanged (path :: pathMap.map Prod.fst)
            (renameRoot path oldPath pathStat oldStat
              :: pathMap.map (renameChildExpected path oldPath oldPathMap))] := by
  have hchild : ∀ kv ∈ pathMap,
      ({ path := kv.1
         stat := some kv.2
         oldPath :=
           (if ((oldPath :: oldPathMap.map Prod.fst).contains
                (replaceFirst kv.1 path oldPath)) = true then
             some (replaceFirst kv.1 path oldPath)
           else none)
         oldStat := lookupPM oldPathMap
           ((if ((oldPath :: oldPathMap.map Prod.fst).contains
                 (replaceFirst kv.1 path oldPath)) = true then
              some (replaceFirst kv.1 path oldPath)
            else none).getD [])
         action := ChangeAction.renamed } : FilesMultitoolChangeEvent)
      = renameChildExpected path oldPath oldPathMap kv := by
    intro kv hkv
    obtain ⟨rest, hrest, hk⟩ := hkeys kv hkv
    have hpre : isPre path kv.1 = true := by
      rw [hk]
      exact isPre_append _ _
    have hdrop : kv.1.drop path.length = '/' :: rest := by
      rw [hk]
      exact List.drop_left _ _
    have hres : replaceFirst kv.1 path oldPath = oldPath ++ kv.1.drop path.length :=
      replaceFirst_of_isPre _ hpre
    have hne : ¬ (oldPath ++ kv.1.drop path.length) = oldPath := by
      intro hc
      have hlen := congrArg List.length hc
      rw [hdrop] at hlen
      simp at hlen
    dsimp only [renameChildExpected]
    rw [hres]
    by_cases hmem : (oldPath ++ kv.1.drop path.length) ∈ oldPathMap.map Prod.fst
    · rw [if_pos ((contains_eq_true_iff _ _).mpr (List.mem_cons_of_mem _ hmem))]
      rw [if_pos hmem, if_pos hmem]
      rfl
    · rw [if_neg (by
            rw [contains_eq_true_iff]
            simp only [List.mem_cons]
            rintro (hc | hc)
            · exact hne hc
            · exact hmem hc)]
      rw [if_neg hmem, if_neg hmem]
      rfl
  simp only [massEmit, hdir]
  rw [if_neg (by simp)]
  dsimp only
  rw [show (oldPath.isEmpty) = false from
    (by cases oldPath with
        | nil => simp at hop
        | cons a t => rfl)]
  simp only [if_true, Bool.false_eq_true, if_false, Option.getD_some]
  rw [List.map_map, List.map_map]
  refine congrArg₂ HAppend.hAppend
    (congrArg₂ HAppend.hAppend (congrArg List.flatten ?_) rfl) ?_
  · apply List.map_congr_left
    intro kv hkv
    dsimp only [Function.comp]
    rw [hchild kv hkv]
  · refine congrArg (fun z => [Ev.pathsChanged (path :: List.map Prod.fst pathMap)
      (renameRoot path oldPath pathStat oldStat :: z)]) ?_
    apply List.map_congr_left
    intro kv hkv
    dsimp only [Function.comp]
    rw [hchild kv hkv]

def c4DirStat : FileStat :=
  { path := ("b".data), parentPath := [], isDirectory := true, isFile := false,
    size := 0, modifiedTime := none, createdTime := none }

def c4OldDirStat : FileStat :=
  { path := ("a".data), parentPath := [], isDirectory := true, isFile := false,
    size := 0, modifiedTime := none, createdTime := none }

def c4FileStat : FileStat :=
  { path := ("b/x.txt".data), parentPath := ("b".data), isDirectory := false,
    isFile := true, size := 2, modifiedTime := none, createdTime := none }

def c4OldFileStat : FileStat :=
  { path := ("a/x.txt".data), parentPath := ("a".data), isDirectory := false,
    isFile := true, size := 2, modifiedTime := none, createdTime := none }

theorem C4_massEmit_rename_batch_witness :
    massEmit .renamed ("b".data) c4DirStat (some [(("b/x.txt".data), c4FileStat)])
        (some ("a".data)) (some c4OldDirStat) (some [(("a/x.txt".data), c4OldFileStat)])
      = (([(("b/x.txt".data), c4FileStat)]).map (fun kv =>
            if kv.2.isDirectory then
              emitDirChanged kv.1 (renameChildExpected ("b".data) ("a".data)
                [(("a/x.txt".data), c4OldFileStat)] kv)
            else
              emitFileChanged kv.1 (renameChildExpected ("b".data) ("a".data)
                [(("a/x.txt".data), c4OldFileStat)] kv))).flatten
        ++ emitDirChanged ("b".data) (renameRoot ("b".data) ("a".data) c4DirStat c4OldDirStat)
        ++ [Ev.pathsChanged (("b".data) :: ([(("b/x.txt".data), c4FileStat)]).map Prod.fst)
            (renameRoot ("b".data) ("a".data) c4DirStat c4OldDirStat
              :: ([(("b/x.txt".data), c4FileStat)]).map
                  (renameChildExpected ("b".data) ("a".data)
                    [(("a/x.txt".data), c4OldFileStat)]))] :=
  C4_massEmit_rename_batch ("b".data) ("a".data) c4DirStat c4OldDirStat
    [(("b/x.txt".data), c4FileStat)] [(("a/x.txt".data), c4OldFileStat)]
    rfl (by decide)
    (by
      intro kv hkv
      simp only [List.mem_singleton] at hkv
      subst hkv
      exact ⟨("x.txt".data), by decide, by decide⟩)

theorem mkdirGo_frame_notmem (now : Nat) :
    ∀ (rest done : List JSStr) (st : Store) (x : JSStr),
    x ∉ partPaths done rest →
    getItem x (mkdirGo now done rest st) = getItem x st := by
  intro rest
  induction rest with
  | nil =>
    intro done st x _
    rfl
  | cons r rest' ih =>
    intro done st x hx
    simp only [partPaths, List.mem_cons] at hx
    push_neg at hx
    have hxne : ¬ x = joinSegs (done ++ [r]) := hx.1
    simp only [mkdirGo]
    have hstep : ∀ st1 : Store,
        (getItem x ((putItem (mkdirRecord (joinSegs (done ++ [r])) now) st1).1)
          = getItem x st1) := by
      intro st1
      rw [getItem_putItem,
          if_neg (by
            rw [show (mkdirRecord (joinSegs (done ++ [r])) now).path
                = joinSegs (done ++ [r]) from rfl]
            exact hxne)]
    cases hg : getItem (joinSegs (done ++ [r])) st with
    | none =>
      dsimp only
      rw [ih (done ++ [r]) _ x hx.2, hstep]
    | some s =>
      dsimp only
      by_cases hd : s.deletedAt.isSome = true
      · rw [if_pos hd]
        rw [ih (done ++ [r]) _ x hx.2, hstep]
      · rw [if_neg hd]
        rw [ih (done ++ [r]) _ x hx.2]

theorem joinSegs_length_mono : ∀ (B A : List JSStr),
    (joinSegs A).length ≤ (joinSegs (A ++ B)).length := by
  intro B
  induction B with
  | nil => intro A; simp
  | cons b B' ih =>
    intro A
    calc (joinSegs A).length ≤ (joinSegs (A ++ [b])).length := joinSegs_concat_len _ _
      _ ≤ (joinSegs ((A ++ [b]) ++ B')).length := ih _
      _ = (joinSegs (A ++ b :: B')).length := by rw [List.append_assoc]; rfl

theorem partPaths_length_le :
    ∀ (rest done : List JSStr) (pp : JSStr), pp ∈ partPaths done rest →
    pp.length ≤ (joinSegs (done ++ rest)).length := by
  intro rest
  induction rest with
  | nil =>
    intro done pp hpp
    simp [partPaths] at hpp
  | cons r rest' ih =>
    intro done pp hpp
    simp only [partPaths, List.mem_cons] at hpp
    rcases hpp with hpp | hpp
    · subst hpp
      calc (joinSegs (done ++ [r])).length
          ≤ (joinSegs ((done ++ [r]) ++ rest')).length := joinSegs_length_mono _ _
        _ = (joinSegs (done ++ r :: rest')).length := by rw [List.append_assoc]; rfl
    · calc pp.length ≤ (joinSegs ((done ++ [r]) ++ rest')).length := ih _ pp hpp
        _ = (joinSegs (done ++ r :: rest')).length := by rw [List.append_assoc]; rfl

theorem stripLead_length (s : JSStr) : (stripLead s).length ≤ s.length := by
  cases s with
  | nil => simp [stripLead]
  | cons c rest =>
    simp only [stripLead]
    by_cases hc : c = '/'
    · rw [if_pos hc]; simp
    · rw [if_neg hc]

theorem stripTrail_length (s : JSStr) : (stripTrail s).length ≤ s.length := by
  induction s with
  | nil => simp [stripTrail]
  | cons c rest ih =>
    cases rest with
    | nil =>
      simp only [stripTrail]
      by_cases hc : c = '/'
      · rw [if_pos hc]; simp
      · rw [if_neg hc]
    | cons d rest2 =>
      rw [stripTrail_cons (by simp)]
      simp only [List.length_cons]
      exact Nat.succ_le_succ ih

theorem stripSlashes_length (s : JSStr) : (stripSlashes s).length ≤ s.length :=
  Nat.le_trans (stripTrail_length _) (stripLead_length _)

/-- A key written by `mkdir(parentOfPath p)` is strictly shorter than `p`
when the parent path is nonempty. -/
theorem parentOf_partPath_lt {p pp : JSStr}
    (hpar : (parentOfPath p).isEmpty = false)
    (hpp : pp ∈ partPaths [] (splitSlash (stripSlashes (parentOfPath p)))) :
    pp.length < p.length := by
  have h1 : pp.length ≤ (stripSlashes (parentOfPath p)).length := by
    have h0 := partPaths_length_le _ [] pp hpp
    rw [List.nil_append] at h0
    rw [joinSegs_splitSlash] at h0
    exact h0
  have h2 : (stripSlashes (parentOfPath p)).length ≤ (parentOfPath p).length :=
    stripSlashes_length _
  have h3 : (parentOfPath p).length < p.length := by
    unfold parentOfPath
    have hS : splitSlash p ≠ [] := splitSlash_ne_nil p
    have hsplit : splitSlash p = (splitSlash p).dropLast ++ [(splitSlash p).getLast hS] :=
      (List.dropLast_append_getLast hS).symm
    have hjoin : (joinSegs ((splitSlash p).dropLast)).length <
        (joinSegs (splitSlash p)).length := by
      by_cases hA : (splitSlash p).dropLast.isEmpty = true
      · -- parent join is empty, contradicting hpar unless p itself is short:
        -- dropLast = [] means joinSegs [] = [] so parentOfPath p = [] ; contradiction
        exfalso
        have : (splitSlash p).dropLast = [] := by
          cases hdl : (splitSlash p).dropLast
          · rfl
          · rw [hdl] at hA; simp at hA
        unfold parentOfPath at hpar
        rw [this] at hpar
        simp [joinSegs, stripSlashes, stripLead, stripTrail] at hpar
      · calc (joinSegs ((splitSlash p).dropLast)).length
            < (joinSegs ((splitSlash p).dropLast ++ [(splitSlash p).getLast hS])).length :=
              joinSegs_concat_len_lt hA _
          _ = (joinSegs (splitSlash p)).length := by rw [← hsplit]
    calc (stripSlashes (joinSegs ((splitSlash p).dropLast))).length
        ≤ (joinSegs ((splitSlash p).dropLast)).length := stripSlashes_length _
      _ < (joinSegs (splitSlash p)).length := hjoin
      _ = p.length := by rw [joinSegs_splitSlash]
  omega

theorem ite_pair {α β : Type} (c : Prop) [Decidable c] (x x' : α) (y : β) :
    (if c then (x, y) else (x', y)) = ((if c then x else x'), y) := by
  by_cases h : c
  · rw [if_pos h, if_pos h]
  · rw [if_neg h, if_neg h]

/-- The state writeFile sees after the orchestrator's parent `mkdir`. -/
def writeParentState (path : JSStr) (now : Nat) (st : Store) : Store :=
  if !(parentOfPath path).isEmpty then mkdirA (parentOfPath path) now st else st

/-- C10: orchestrator `writeFile` over the IndexedDB backend emits
`file-changed` and `paths-changed` carrying action `modified` and the
pre-write stat (old size and modifiedTime) when a live non-directory record
already existed, and action `added` with a stat fetched after the write
(fresh size `|b|` and fresh modifiedTime) when nothing existed. -/
theorem C10_writeFile_events (rawPath path : JSStr) (b : List Nat) (fuel now : Nat)
    (st : Store) (evs : List Ev)
    (hcleanp : cleanPath rawPath = Except.ok path) :
    (∀ s0 : IndexedDBFileStat, getItem path st = some s0 → s0.deletedAt = none →
      s0.isDirectory = false →
      writeFileO (idb fuel now) rawPath b st evs
        = ((writeFileA path b now (writeParentState path now st),
            evs ++ emitFileChanged path
              { path := path, stat := some (convertFileStat s0), oldPath := none,
                oldStat := none, action := .modified }
              ++ [Ev.pathsChanged [path]
                  [{ path := path, stat := some (convertFileStat s0), oldPath := none,
                     oldStat := none, action := .modified }]]),
           Except.ok ()))
    ∧ (statA path st = none →
        (convertFileStat
          (putItem (writeRecord path b now) (writeParentState path now st)).2).size
            = b.length
        ∧ (convertFileStat
            (putItem (writeRecord path b now) (writeParentState path now st)).2).modifiedTime
              = some now
        ∧ writeFileO (idb fuel now) rawPath b st evs
          = ((writeFileA path b now (writeParentState path now st),
              evs ++ emitFileChanged path
                { path := path,
                  stat := some (convertFileStat
                    (putItem (writeRecord path b now) (writeParentState path now st)).2),
                  oldPath := none, oldStat := none, action := .added }
                ++ [Ev.pathsChanged [path]
                    [{ path := path,
                       stat := some (convertFileStat
                         (putItem (writeRecord path b now) (writeParentState path now st)).2),
                       oldPath := none, oldStat := none, action := .added }]]),
             Except.ok ())) := by
  constructor
  · intro s0 hget hlive hdir0
    have hstat : statA path st = some (convertFileStat s0) := by
      unfold statA
      rw [hget]
      dsimp only
      rw [if_neg (by rw [hlive]; simp)]
    unfold writeFileO
    rw [hcleanp]
    dsimp only [idb]
    rw [hstat]
    dsimp only [Option.elim]
    rw [show (convertFileStat s0).isDirectory = s0.isDirectory from rfl, hdir0]
    simp only [Bool.false_eq_true, if_false]
    rw [ite_pair]
    dsimp only
    rfl
  · intro hnone
    obtain ⟨ct, hct⟩ := putItem_snd (writeRecord path b now) (writeParentState path now st)
    refine ⟨by rw [hct]; rfl, by rw [hct]; rfl, ?_⟩
    have hget3 : getItem path (writeFileA path b now (writeParentState path now st))
        = some ((putItem (writeRecord path b now) (writeParentState path now st)).2) := by
      unfold writeFileA
      rw [getItem_putItem, if_pos (show path = (writeRecord path b now).path from rfl)]
    have hstat3 : statA path (writeFileA path b now (writeParentState path now st))
        = some (convertFileStat
            (putItem (writeRecord path b now) (writeParentState path now st)).2) := by
      unfold statA
      rw [hget3, hct]
      dsimp only
      rw [if_neg (by simp [writeRecord])]
    unfold writeFileO
    rw [hcleanp]
    dsimp only [idb]
    rw [hnone]
    dsimp only [Option.elim]
    simp only [Bool.false_eq_true, if_false]
    rw [ite_pair]
    dsimp only
    rw [show (if (!(parentOfPath path).isEmpty) = true
          then mkdirA (parentOfPath path) now st
          else st) = writeParentState path now st from rfl]
    rw [hstat3]
    rfl

theorem C10_writeFile_events_witness :
    (writeFileO (idb 5 3) ("docs/readme.md".data) [104, 105] [] []).2 = Except.ok ()
    ∧ (convertFileStat (putItem (writeRecord ("docs/readme.md".data) [104, 105] 3)
        (writeParentState ("docs/readme.md".data) 3 [])).2).size = 2 :=
  have h := (C10_writeFile_events ("docs/readme.md".data) ("docs/readme.md".data)
    [104, 105] 5 3 [] [] rfl).2 rfl
  ⟨by rw [h.2.2], h.1⟩

/-! ### Store well-formedness for the rmdir correctness proof -/

/-- `q` is `p` itself or lies strictly below `p` in the path tree. -/
def descOrSelf (p q : JSStr) : Prop := q = p ∨ isPre (p ++ ['/']) q = true

/-- A canonical path string: no empty segments (hence nonempty, no leading,
trailing or repeated separators). -/
def Canon (s : JSStr) : Prop := [] ∉ splitSlash s

/-- A well-formed record: canonical dot-dot-free path whose `parentPath` is
consistent with it under the adaptor's own recomputation formula. -/
def WFrec (r : IndexedDBFileStat) : Prop :=
  Canon r.path ∧ isSub ['.', '.'] r.path = false
    ∧ joinPath r.parentPath (lastSeg r.path) = r.path

def WFstore (st : Store) : Prop := ∀ r ∈ st, WFrec r

def NodupKeys (st : Store) : Prop := (st.map (fun r => r.path)).Nodup

/-- Every live record's parent (when not the root) is a live directory
record of the store. -/
def ClosedStore (st : Store) : Prop :=
  ∀ r ∈ st, r.deletedAt = none → r.parentPath ≠ [] →
    ∃ q, getItem r.parentPath st = some q ∧ q.isDirectory = true ∧ q.deletedAt = none

theorem isPre_iff {a b : JSStr} : isPre a b = true ↔ ∃ c, b = a ++ c := by
  induction a generalizing b with
  | nil => simp [isPre]
  | cons x s ih =>
    cases b with
    | nil =>
      simp only [isPre]
      constructor
      · intro h; exact absurd h (by simp)
      · rintro ⟨c, hc⟩; simp at hc
    | cons y t =>
      simp only [isPre, Bool.and_eq_true, decide_eq_true_eq]
      rw [ih]
      constructor
      · rintro ⟨rfl, c, rfl⟩
        exact ⟨c, rfl⟩
      · rintro ⟨c, hc⟩
        rw [List.cons_append] at hc
        cases hc
        exact ⟨rfl, c, rfl⟩

theorem isPre_trans {a b c : JSStr} (h1 : isPre a b = true) (h2 : isPre b c = true) :
    isPre a c = true := by
  obtain ⟨u, rfl⟩ := isPre_iff.mp h1
  obtain ⟨v, rfl⟩ := isPre_iff.mp h2
  exact isPre_iff.mpr ⟨u ++ v, by simp⟩

theorem isPre_mem {a b : JSStr} {x : Char} (h : isPre a b = true) (hx : x ∈ a) : x ∈ b := by
  obtain ⟨u, rfl⟩ := isPre_iff.mp h
  exact List.mem_append_left _ hx

theorem headI_mem_splitSlash (x : JSStr) : (splitSlash x).headI ∈ splitSlash x := by
  cases h : splitSlash x with
  | nil => exact absurd h (splitSlash_ne_nil x)
  | cons s ss => simp

theorem segments_no_slash : ∀ (x : JSStr) (s : JSStr), s ∈ splitSlash x → '/' ∉ s := by
  intro x
  induction x with
  | nil =>
    intro s hs
    simp [splitSlash] at hs
    subst hs
    simp
  | cons c rest ih =>
    intro s hs
    by_cases hc : c = '/'
    · subst hc
      rw [splitSlash_cons_slash] at hs
      rcases List.mem_cons.mp hs with rfl | hs
      · simp
      · exact ih s hs
    · rw [splitSlash_cons_ne hc] at hs
      rcases List.mem_cons.mp hs with rfl | hs
      · intro hmem
        rcases List.mem_cons.mp hmem with hmem | hmem
        · exact hc hmem.symm
        · exact ih _ (headI_mem_splitSlash rest) hmem
      · exact ih s (List.mem_of_mem_tail hs)

theorem getLastD_mem {l : List JSStr} (h : l ≠ []) (d : JSStr) : l.getLastD d ∈ l := by
  induction l with
  | nil => exact absurd rfl h
  | cons a tl ih =>
    cases tl with
    | nil => simp [List.getLastD]
    | cons b tl2 =>
      have : (b :: tl2).getLastD d ∈ b :: tl2 := ih (by simp)
      simp only [List.getLastD] at this ⊢
      exact List.mem_cons_of_mem _ this

theorem lastSeg_mem (x : JSStr) : lastSeg x ∈ splitSlash x :=
  getLastD_mem (splitSlash_ne_nil x) []

theorem canon_ne_nil {p : JSStr} (h : Canon p) : p ≠ [] := by
  intro hc
  subst hc
  exact h (by simp [splitSlash])

theorem canon_stripLead {p : JSStr} (h : Canon p) : stripLead p = p := by
  cases p with
  | nil => rfl
  | cons c t =>
    by_cases hc : c = '/'
    · subst hc
      exact absurd (by rw [splitSlash_cons_slash]; simp) (fun hin => h hin)
    · exact stripLead_cons_ne hc t

theorem splitSlash_append (x y : JSStr) :
    splitSlash (x ++ '/' :: y) = splitSlash x ++ splitSlash y := by
  induction x with
  | nil => simp [splitSlash_cons_slash, splitSlash]
  | cons c x' ih =>
    by_cases hc : c = '/'
    · subst hc
      rw [List.cons_append, splitSlash_cons_slash, splitSlash_cons_slash, ih]
      rfl
    · rw [List.cons_append, splitSlash_cons_ne hc, splitSlash_cons_ne hc, ih]
      cases hS : splitSlash x' with
      | nil => exact absurd hS (splitSlash_ne_nil x')
      | cons s ss => simp

theorem canon_stripTrail {p : JSStr} (h : Canon p) : stripTrail p = p := by
  rcases List.eq_nil_or_concat p with rfl | ⟨q, c, hp⟩
  · rfl
  · rw [List.concat_eq_append] at hp
    subst hp
    by_cases hc : c = '/'
    · subst hc
      exfalso
      apply h
      rw [show q ++ ['/'] = q ++ '/' :: ([] : JSStr) from rfl, splitSlash_append]
      simp [splitSlash]
    · rw [stripTrail_append q (by simp)]
      simp only [stripTrail]
      rw [if_neg hc]

theorem joinPath_eq {p s : JSStr} (hp1 : p ≠ []) (hp2 : stripTrail p = p)
    (hs1 : s ≠ []) (hs2 : stripLead s = s) : joinPath p s = p ++ '/' :: s := by
  unfold joinPath
  rw [hp2, hs2]
  have hfilter : List.filter (fun v => !v.isEmpty) [p, s] = [p, s] := by
    cases p with
    | nil => exact absurd rfl hp1
    | cons a t =>
      cases s with
      | nil => exact absurd rfl hs1
      | cons b u => rfl
  rw [hfilter]
  rfl

/-- A well-formed record under a canonical parent has the shape
`parentPath ++ '/' :: seg` for a nonempty slash-free final segment. -/
theorem child_shape {r : IndexedDBFileStat} (hwf : WFrec r) (hpp : Canon r.parentPath) :
    r.path = r.parentPath ++ '/' :: lastSeg r.path
    ∧ lastSeg r.path ≠ [] ∧ ('/' ∉ lastSeg r.path) := by
  have hls : lastSeg r.path ∈ splitSlash r.path := lastSeg_mem _
  have hne : lastSeg r.path ≠ [] := fun hc => hwf.1 (hc ▸ hls)
  have hnoslash : '/' ∉ lastSeg r.path := segments_no_slash _ _ hls
  have hs2 : stripLead (lastSeg r.path) = lastSeg r.path := by
    cases hc : lastSeg r.path with
    | nil => exact absurd hc hne
    | cons c t =>
      refine stripLead_cons_ne ?_ t
      intro hcs
      exact hnoslash (by rw [hc, hcs]; simp)
  have hj := joinPath_eq (canon_ne_nil hpp) (canon_stripTrail hpp) hne hs2
  refine ⟨?_, hne, hnoslash⟩
  conv_lhs => rw [← hwf.2.2]
  rw [hj]

theorem child_len {r : IndexedDBFileStat} (hwf : WFrec r) (hpp : Canon r.parentPath) :
    r.parentPath.length + 2 ≤ r.path.length := by
  obtain ⟨hshape, hne, _⟩ := child_shape hwf hpp
  rw [hshape]
  simp only [List.length_append, List.length_cons]
  cases hc : lastSeg r.path with
  | nil => exact absurd hc hne
  | cons c t => simp

theorem prefix_step : ∀ (pp p seg : JSStr), ('/' ∉ seg) →
    isPre (p ++ ['/']) (pp ++ '/' :: seg) = true →
    pp = p ∨ isPre (p ++ ['/']) pp = true := by
  intro pp
  induction pp with
  | nil =>
    intro p seg hseg h
    cases p with
    | nil => exact Or.inl rfl
    | cons a p' =>
      exfalso
      rw [List.nil_append, List.cons_append] at h
      simp only [isPre, Bool.and_eq_true, decide_eq_true_eq] at h
      exact hseg (isPre_mem h.2 (by simp))
  | cons d pp' ih =>
    intro p seg hseg h
    cases p with
    | nil =>
      right
      rw [List.nil_append] at h ⊢
      rw [List.cons_append] at h
      simp only [isPre, Bool.and_eq_true, decide_eq_true_eq] at h ⊢
      exact ⟨h.1, trivial⟩
    | cons a p' =>
      rw [List.cons_append, List.cons_append] at h
      simp only [isPre, Bool.and_eq_true, decide_eq_true_eq] at h
      obtain ⟨rfl, h2⟩ := h
      rcases ih p' seg hseg h2 with rfl | hp
      · exact Or.inl rfl
      · right
        rw [List.cons_append]
        simp only [isPre, Bool.and_eq_true, decide_eq_true_eq]
        exact ⟨trivial, hp⟩

theorem getItem_mem {x : JSStr} {st : Store} {r : IndexedDBFileStat}
    (h : getItem x st = some r) : r ∈ st := by
  induction st with
  | nil => simp [getItem] at h
  | cons a tl ih =>
    simp only [getItem] at h
    by_cases ha : a.path = x
    · rw [if_pos ha] at h
      cases h
      exact List.mem_cons_self _ _
    · rw [if_neg ha] at h
      exact List.mem_cons_of_mem _ (ih h)

theorem getItem_of_mem_nodup {st : Store} {r : IndexedDBFileStat}
    (hnd : NodupKeys st) (h : r ∈ st) : getItem r.path st = some r := by
  induction st with
  | nil => simp at h
  | cons a tl ih =>
    rcases List.mem_cons.mp h with rfl | h
    · simp [getItem]
    · have ha : ¬ a.path = r.path := by
        intro hc
        have : a.path ∈ tl.map (fun r => r.path) := hc ▸ List.mem_map_of_mem _ h
        exact (List.nodup_cons.mp hnd).1 this
      simp only [getItem]
      rw [if_neg ha]
      exact ih (List.nodup_cons.mp hnd).2 h

theorem removeItem_sublist (p : JSStr) (st : Store) : (removeItem p st).Sublist st := by
  induction st with
  | nil => simp [removeItem]
  | cons a tl ih =>
    simp only [removeItem]
    by_cases ha : a.path = p
    · rw [if_pos ha]
      exact ih.cons _
    · rw [if_neg ha]
      exact ih.cons₂ _

theorem listItems_sublist (p : JSStr) (st : Store) : (listItems p st).Sublist st := by
  induction st with
  | nil => simp [listItems]
  | cons a tl ih =>
    simp only [listItems]
    by_cases ha : a.parentPath = p
    · rw [if_pos ha]
      exact ih.cons₂ _
    · rw [if_neg ha]
      exact ih.cons _

theorem NodupKeys_sublist {st st' : Store} (h : st'.Sublist st) (hnd : NodupKeys st) :
    NodupKeys st' :=
  List.Nodup.sublist (h.map _) hnd

theorem NodupKeys_putStore (w : IndexedDBFileStat) {st : Store} (hnd : NodupKeys st) :
    NodupKeys (putStore w st) := by
  unfold putStore NodupKeys
  rw [List.map_append]
  rw [List.nodup_append]
  refine ⟨NodupKeys_sublist (removeItem_sublist _ _) hnd, by simp, ?_⟩
  intro x hx
  simp only [List.mem_map] at hx
  obtain ⟨r, hr, rfl⟩ := hx
  simp only [List.map_cons, List.map_nil, List.mem_singleton]
  exact fun hc => (mem_removeItem hr).2 hc

theorem NodupKeys_putItem (s : IndexedDBFileStat) {st : Store} (hnd : NodupKeys st) :
    NodupKeys (putItem s st).1 := by
  unfold putItem
  cases hg : getItem s.path st with
  | none => exact NodupKeys_putStore _ hnd
  | some ex =>
    dsimp only
    by_cases hd : ex.deletedAt.isSome = true
    · rw [if_pos hd]
      exact NodupKeys_putStore _ (NodupKeys_sublist (removeItem_sublist _ _) hnd)
    · rw [if_neg hd]
      exact NodupKeys_putStore _ hnd

theorem sibling_not_desc {p a b sa sb : JSStr}
    (ha : a = p ++ '/' :: sa) (hb : b = p ++ '/' :: sb) (hsb : '/' ∉ sb)
    (hne : b ≠ a) : ¬ descOrSelf a b := by
  rintro (hc | hpre)
  · exact hne hc
  · obtain ⟨c, hc⟩ := isPre_iff.mp hpre
    rw [ha, hb] at hc
    rw [List.append_assoc, List.append_assoc] at hc
    have := List.append_cancel_left hc
    simp only [List.cons_append, List.cons.injEq] at this
    apply hsb
    rw [this.2]
    simp

theorem desc_of_child_desc {p a x sa : JSStr} (ha : a = p ++ '/' :: sa)
    (hx : descOrSelf a x) : isPre (p ++ ['/']) x = true := by
  rcases hx with rfl | hpre
  · exact isPre_iff.mpr ⟨sa, by rw [ha]; simp⟩
  · obtain ⟨c, rfl⟩ := isPre_iff.mp hpre
    exact isPre_iff.mpr ⟨sa ++ '/' :: c, by rw [ha]; simp⟩

theorem isPre_length {a b : JSStr} (h : isPre a b = true) : a.length ≤ b.length := by
  obtain ⟨c, rfl⟩ := isPre_iff.mp h
  simp

theorem desc_refl (p : JSStr) : descOrSelf p p := Or.inl rfl

theorem desc_extend {a pp : JSStr} (h : descOrSelf a pp) (seg : JSStr) :
    isPre (a ++ ['/']) (pp ++ '/' :: seg) = true := by
  rcases h with rfl | hpre
  · exact isPre_iff.mpr ⟨seg, by simp⟩
  · obtain ⟨u, rfl⟩ := isPre_iff.mp hpre
    exact isPre_iff.mpr ⟨u ++ '/' :: seg, by simp⟩

theorem seg_eq_of_pre : ∀ (sa sb u v : JSStr), ('/' ∉ sa) → ('/' ∉ sb) →
    sa ++ '/' :: u = sb ++ '/' :: v → sa = sb := by
  intro sa
  induction sa with
  | nil =>
    intro sb u v _ hsb h
    cases sb with
    | nil => rfl
    | cons b bs =>
      rw [List.nil_append, List.cons_append] at h
      cases h
      exact absurd (List.mem_cons_self _ _) hsb
  | cons a as ih =>
    intro sb u v hsa hsb h
    cases sb with
    | nil =>
      rw [List.nil_append, List.cons_append] at h
      cases h
      exact absurd (List.mem_cons_self _ _) hsa
    | cons b bs =>
      rw [List.cons_append, List.cons_append] at h
      obtain ⟨rfl, h2⟩ := List.cons.injEq .. ▸ h
      rw [ih bs u v (fun hc => hsa (List.mem_cons_of_mem _ hc))
        (fun hc => hsb (List.mem_cons_of_mem _ hc)) h2]

/-- The subtrees of two distinct direct children are disjoint. -/
theorem desc_trees_disjoint {p a b sa sb q : JSStr}
    (ha : a = p ++ '/' :: sa) (hb : b = p ++ '/' :: sb)
    (hsa : '/' ∉ sa) (hsb : '/' ∉ sb) (hne : a ≠ b)
    (hqa : descOrSelf a q) : ¬ descOrSelf b q := by
  rintro (rfl | hpre)
  · exact sibling_not_desc ha hb hsb (Ne.symm hne) hqa
  · obtain ⟨v, rfl⟩ := isPre_iff.mp hpre
    rcases hqa with heq | hpra
    · -- b ++ '/' ++ v = a : a would lie strictly below b
      exact sibling_not_desc hb ha hsa hne
        (Or.inr (isPre_iff.mpr ⟨v, heq.symm⟩))
    · obtain ⟨u, hu⟩ := isPre_iff.mp hpra
      rw [ha, hb] at hu
      simp only [List.append_assoc, List.cons_append, List.singleton_append] at hu
      have h2 := List.append_cancel_left hu
      rw [List.cons.injEq] at h2
      exact hne (by rw [ha, hb, seg_eq_of_pre sb sa v u hsb hsa h2.2])

theorem joinPath_nil (s : JSStr) : joinPath [] s = stripLead s := by
  cases h : stripLead s with
  | nil =>
    unfold joinPath
    rw [h]
    rfl
  | cons c t =>
    unfold joinPath
    rw [h]
    rfl

/-- A well-formed record with an empty `parentPath` has a slash-free path. -/
theorem no_slash_of_pp_nil {r : IndexedDBFileStat} (hwf : WFrec r)
    (hpp : r.parentPath = []) : '/' ∉ r.path := by
  have h := hwf.2.2
  rw [hpp, joinPath_nil] at h
  have hns : '/' ∉ lastSeg r.path := segments_no_slash _ _ (lastSeg_mem _)
  have hsl : stripLead (lastSeg r.path) = lastSeg r.path := by
    cases hc : lastSeg r.path with
    | nil => rfl
    | cons c t =>
      refine stripLead_cons_ne ?_ t
      intro hcs
      exact hns (by rw [hc, hcs]; simp)
  rw [hsl] at h
  rw [← h]
  exact hns

theorem listItems_mem_of {r : IndexedDBFileStat} {p : JSStr} {st : Store}
    (h : r ∈ st) (hp : r.parentPath = p) : r ∈ listItems p st := by
  induction st with
  | nil => simp at h
  | cons a tl ih =>
    simp only [listItems]
    rcases List.mem_cons.mp h with rfl | h
    · rw [if_pos hp]
      exact List.mem_cons_self _ _
    · by_cases ha : a.parentPath = p
      · rw [if_pos ha]
        exact List.mem_cons_of_mem _ (ih h)
      · rw [if_neg ha]
        exact ih h

/-- `cleanPath` is the identity on canonical `..`-free paths. -/
theorem cleanPath_canon {p : JSStr} (h1 : Canon p) (h2 : isSub ['.', '.'] p = false) :
    cleanPath p = .ok p := by
  unfold cleanPath
  have hne : p ≠ [] := canon_ne_nil h1
  have hie : p.isEmpty = false := by
    cases p with
    | nil => exact absurd rfl hne
    | cons c t => rfl
  rw [if_neg (by simp [hie])]
  rw [if_neg (by simp [h2])]
  rw [stripSlashes_collapse p.length p le_rfl]
  have hnseg : nseg p = splitSlash p := by
    unfold nseg
    refine List.filter_eq_self.mpr ?_
    intro s hs
    cases s with
    | nil => exact absurd hs h1
    | cons c t => rfl
  rw [hnseg, joinSegs_splitSlash]

/-- The postcondition of tombstoning the subtree rooted at `x`: records
outside the subtree are untouched, every record at or below `x` is dead,
every record of the new store is a record of the old one possibly
tombstoned at `now`, and keys stay duplicate-free. -/
structure KillSpec (now : Nat) (x : JSStr) (st st' : Store) : Prop where
  frame : ∀ q, ¬ descOrSelf x q → getItem q st' = getItem q st
  killed : ∀ q r, descOrSelf x q → getItem q st' = some r → r.deletedAt.isSome = true
  prov : ∀ r ∈ st', ∃ r0 ∈ st, r = r0 ∨ r = { r0 with deletedAt := some now }
  nodup : NodupKeys st'

theorem kill_live_mem {now : Nat} {x : JSStr} {st st' : Store}
    (K : KillSpec now x st st') {r : IndexedDBFileStat}
    (hr : r ∈ st') (hlive : r.deletedAt = none) : r ∈ st := by
  obtain ⟨r0, hr0, hcase⟩ := K.prov r hr
  rcases hcase with rfl | rfl
  · exact hr0
  · exact absurd hlive (by simp)

theorem kill_WFstore {now : Nat} {x : JSStr} {st st' : Store}
    (K : KillSpec now x st st') (hW : WFstore st) : WFstore st' := by
  intro r hr
  obtain ⟨r0, hr0, hcase⟩ := K.prov r hr
  rcases hcase with rfl | rfl
  · exact hW _ hr0
  · exact hW r0 hr0

theorem kill_Closed {now : Nat} {x : JSStr} {st st' : Store}
    (K : KillSpec now x st st') (hW : WFstore st) (hC : ClosedStore st) :
    ClosedStore st' := by
  intro r hr hlive hppne
  have hrst : r ∈ st := kill_live_mem K hr hlive
  have hndesc : ¬ descOrSelf x r.path := by
    intro hd
    have hget : getItem r.path st' = some r := getItem_of_mem_nodup K.nodup hr
    have hdead := K.killed r.path r hd hget
    rw [hlive] at hdead
    exact absurd hdead (by simp)
  obtain ⟨q, hq, hqdir, hqlive⟩ := hC r hrst hlive hppne
  have hqpath : q.path = r.parentPath := getItem_path hq
  have hcanonpp : Canon r.parentPath := hqpath ▸ (hW q (getItem_mem hq)).1
  obtain ⟨hshape, _, _⟩ := child_shape (hW r hrst) hcanonpp
  have hppnd : ¬ descOrSelf x r.parentPath := by
    intro hd
    exact hndesc (Or.inr (by rw [hshape]; exact desc_extend hd _))
  rw [K.frame r.parentPath hppnd]
  exact ⟨q, hq, hqdir, hqlive⟩

/-- In a closed store no live record lies strictly below a live non-directory. -/
theorem no_live_under {st : Store} (hW : WFstore st) (hC : ClosedStore st)
    {x : JSStr} {c : IndexedDBFileStat} (hx : getItem x st = some c)
    (hlive : c.deletedAt = none) (hnd : c.isDirectory = false) :
    ∀ r ∈ st, r.deletedAt = none → isPre (x ++ ['/']) r.path = false := by
  suffices H : ∀ n, ∀ r ∈ st, r.path.length ≤ n → r.deletedAt = none →
      isPre (x ++ ['/']) r.path = false by
    intro r hr hl
    exact H r.path.length r hr le_rfl hl
  intro n
  induction n with
  | zero =>
    intro r hr hlen hlive2
    cases hpre : isPre (x ++ ['/']) r.path
    · rfl
    · have := isPre_length hpre
      simp at this
      omega
  | succ n ih =>
    intro r hr hlen hlive2
    cases hpre : isPre (x ++ ['/']) r.path
    · rfl
    · exfalso
      have hWr := hW r hr
      have hslash : '/' ∈ r.path := isPre_mem hpre (by simp)
      have hppne : r.parentPath ≠ [] := fun hpp => no_slash_of_pp_nil hWr hpp hslash
      obtain ⟨q, hq, hqdir, hqlive⟩ := hC r hr hlive2 hppne
      have hqpath : q.path = r.parentPath := getItem_path hq
      have hqmem : q ∈ st := getItem_mem hq
      have hcanonpp : Canon r.parentPath := hqpath ▸ (hW q hqmem).1
      obtain ⟨hshape, hsegne, hsegns⟩ := child_shape hWr hcanonpp
      rw [hshape] at hpre
      rcases prefix_step r.parentPath x (lastSeg r.path) hsegns hpre with heq | hunder
      · rw [heq, hx] at hq
        cases hq
        rw [hqdir] at hnd
        exact Bool.noConfusion hnd
      · have hql : q.path.length ≤ n := by
          have h2 := child_len hWr hcanonpp
          have h3 : q.path.length = r.parentPath.length := by rw [hqpath]
          omega
        have := ih q hqmem hql hqlive
        rw [hqpath, hunder] at this
        exact Bool.noConfusion this

/-- Every live record strictly below `p` lies at or below some live direct
child of `p`. -/
theorem chain_up {st : Store} (hW : WFstore st) (hC : ClosedStore st) (p : JSStr) :
    ∀ r ∈ st, r.deletedAt = none → isPre (p ++ ['/']) r.path = true →
    ∃ c ∈ st, c.parentPath = p ∧ c.deletedAt = none ∧ descOrSelf c.path r.path := by
  suffices H : ∀ n, ∀ r ∈ st, r.path.length ≤ n → r.deletedAt = none →
      isPre (p ++ ['/']) r.path = true →
      ∃ c ∈ st, c.parentPath = p ∧ c.deletedAt = none ∧ descOrSelf c.path r.path by
    intro r hr hl hp
    exact H r.path.length r hr le_rfl hl hp
  intro n
  induction n with
  | zero =>
    intro r hr hlen hlive hpre
    exfalso
    have := isPre_length hpre
    simp at this
    omega
  | succ n ih =>
    intro r hr hlen hlive hpre
    have hWr := hW r hr
    have hslash : '/' ∈ r.path := isPre_mem hpre (by simp)
    have hppne : r.parentPath ≠ [] := fun hpp => no_slash_of_pp_nil hWr hpp hslash
    obtain ⟨q, hq, hqdir, hqlive⟩ := hC r hr hlive hppne
    have hqpath : q.path = r.parentPath := getItem_path hq
    have hqmem : q ∈ st := getItem_mem hq
    have hcanonpp : Canon r.parentPath := hqpath ▸ (hW q hqmem).1
    obtain ⟨hshape, hsegne, hsegns⟩ := child_shape hWr hcanonpp
    rw [hshape] at hpre
    rcases prefix_step r.parentPath p (lastSeg r.path) hsegns hpre with heq | hunder
    · exact ⟨r, hr, heq, hlive, desc_refl r.path⟩
    · have hql : q.path.length ≤ n := by
        have h2 := child_len hWr hcanonpp
        have h3 : q.path.length = r.parentPath.length := by rw [hqpath]
        omega
      obtain ⟨c, hcmem, hcp, hclive, hcdesc⟩ :=
        ih q hqmem hql hqlive (by rw [hqpath]; exact hunder)
      refine ⟨c, hcmem, hcp, hclive, Or.inr ?_⟩
      rw [hqpath] at hcdesc
      rw [hshape]
      exact desc_extend hcdesc _

theorem not_desc_of_lt {x q : JSStr} (h : q.length < x.length) : ¬ descOrSelf x q := by
  rintro (rfl | hpre)
  · omega
  · have := isPre_length hpre
    simp at this
    omega

/-- `_putItem` on a path holding a live record: inherit its `createdTime`. -/
theorem putItem_live (s ex : IndexedDBFileStat) (st : Store)
    (hg : getItem s.path st = some ex) (hl : ex.deletedAt.isSome = false) :
    putItem s st = (putStore { s with createdTime := ex.createdTime } st,
                    { s with createdTime := ex.createdTime }) := by
  unfold putItem
  rw [hg]
  dsimp only
  rw [if_neg (by simp [hl])]

theorem tomb_idem (c : IndexedDBFileStat) (a : Option Nat) :
    ({ { c with deletedAt := a } with createdTime := c.createdTime } : IndexedDBFileStat)
      = { c with deletedAt := a } := rfl

def StoreInv (st : Store) : Prop := WFstore st ∧ NodupKeys st ∧ ClosedStore st

/-- All live records strictly below `p` are shorter than `p.length + n`. -/
def Bound (p : JSStr) (st : Store) (n : Nat) : Prop :=
  ∀ r ∈ st, r.deletedAt = none → isPre (p ++ ['/']) r.path = true →
    r.path.length < p.length + n

/-- The item loop of `IndexedDBAdaptor.rmdir` tombstones the subtree of each
live snapshot child and leaves everything else untouched. `IHmain` is the
induction hypothesis for `rmdirA` at smaller fuel. -/
theorem rmdirChildren_ok (now f : Nat) (p : JSStr) (hcp : Canon p)
    (IHmain : ∀ g, g ≤ f → ∀ p' st s, 1 ≤ g → StoreInv st → Canon p' →
      getItem p' st = some s → s.deletedAt = none → Bound p' st (2 * g) →
      ∃ st', rmdirA now g p' st = (st', .ok ()) ∧ KillSpec now p' st st') :
    ∀ items, ∀ st : Store,
    (∀ c ∈ items, WFrec c ∧ c.parentPath = p) →
    ((items.map (fun c => c.path)).Nodup) →
    (∀ c ∈ items, c.deletedAt = none → getItem c.path st = some c) →
    StoreInv st → Bound p st (2 * f + 2) →
    ∃ st', rmdirChildren now f items p st = (st', .ok ())
      ∧ (∀ q, (∀ c ∈ items, c.deletedAt = none → ¬ descOrSelf c.path q) →
          getItem q st' = getItem q st)
      ∧ (∀ c ∈ items, c.deletedAt = none → ∀ q r, descOrSelf c.path q →
          getItem q st' = some r → r.deletedAt.isSome = true)
      ∧ (∀ r ∈ st', ∃ r0 ∈ st, r = r0 ∨ r = { r0 with deletedAt := some now })
      ∧ NodupKeys st' ∧ WFstore st' ∧ ClosedStore st' := by
  intro items
  induction items with
  | nil =>
    intro st _ _ _ hinv _
    refine ⟨st, by simp only [rmdirChildren], fun q _ => rfl,
      fun c hc => absurd hc (List.not_mem_nil c),
      fun r hr => ⟨r, hr, Or.inl rfl⟩, hinv.2.1, hinv.1, hinv.2.2⟩
  | cons c rest ih =>
    intro st Hwf Hnd Hcur Hinv Hb
    obtain ⟨HW, HN, HC⟩ := Hinv
    have hmemc : c ∈ c :: rest := List.mem_cons_self _ _
    have hwfc : WFrec c := (Hwf c hmemc).1
    have hpc : c.parentPath = p := (Hwf c hmemc).2
    have hcanonpc : Canon c.parentPath := by rw [hpc]; exact hcp
    obtain ⟨hshape0, hsegne, hsegns⟩ := child_shape hwfc hcanonpc
    have hshape : c.path = p ++ '/' :: lastSeg c.path := by rw [← hpc]; exact hshape0
    have hitem : joinPath p (lastSeg c.path) = c.path := by rw [← hpc]; exact hwfc.2.2
    by_cases hdead : c.deletedAt.isSome = true
    · -- tombstoned snapshot entry: skipped
      have hstep : rmdirChildren now f (c :: rest) p st = rmdirChildren now f rest p st := by
        simp only [rmdirChildren]
        rw [if_pos hdead]
      obtain ⟨st', hrec, Fr, Kl, Pv, Nd, Wf, Cl⟩ :=
        ih st (fun d hd => Hwf d (List.mem_cons_of_mem _ hd))
          (List.nodup_cons.mp Hnd).2
          (fun d hd hl => Hcur d (List.mem_cons_of_mem _ hd) hl)
          ⟨HW, HN, HC⟩ Hb
      refine ⟨st', by rw [hstep]; exact hrec, ?_, ?_, Pv, Nd, Wf, Cl⟩
      · intro q hq
        exact Fr q (fun d hd hl => hq d (List.mem_cons_of_mem _ hd) hl)
      · intro d hd hl
        rcases List.mem_cons.mp hd with rfl | hd
        · rw [hl] at hdead
          exact absurd hdead (by simp)
        · exact Kl d hd hl
    · -- live entry
      have hlivec : c.deletedAt = none := Option.not_isSome_iff_eq_none.mp hdead
      have hgetc : getItem c.path st = some c := Hcur c hmemc hlivec
      have hcmem : c ∈ st := getItem_mem hgetc
      have hlen : p.length + 2 ≤ c.path.length := by
        have h2 := child_len hwfc hcanonpc
        have h3 : c.parentPath.length = p.length := by rw [hpc]
        omega
      have hdescc : isPre (p ++ ['/']) c.path = true := by
        rw [hshape]
        exact desc_extend (desc_refl p) _
      have hboundc := Hb c hcmem hlivec hdescc
      have hf1 : 1 ≤ f := by omega
      -- the processing step for the head: its state `st1` and `KillSpec`
      have hstage : ∃ st1,
          rmdirChildren now f (c :: rest) p st = rmdirChildren now f rest p st1
          ∧ KillSpec now c.path st st1 := by
        by_cases hdir : c.isDirectory = true
        · -- subdirectory: recursive rmdir
          have hBc : Bound c.path st (2 * f) := by
            intro r hr hl hpre
            have hpp : isPre (p ++ ['/']) (c.path ++ ['/']) = true := by
              refine isPre_iff.mpr ⟨lastSeg c.path ++ ['/'], ?_⟩
              conv_lhs => rw [hshape]
              simp
            have := Hb r hr hl (isPre_trans hpp hpre)
            omega
          obtain ⟨st1, hst1, K1⟩ :=
            IHmain f le_rfl c.path st c hf1 ⟨HW, HN, HC⟩ hwfc.1 hgetc hlivec hBc
          refine ⟨st1, ?_, K1⟩
          simp only [rmdirChildren]
          rw [if_neg hdead]
          rw [hitem, if_pos hdir, hst1]
        · -- file: tombstone it
          have hnl := no_live_under HW HC hgetc hlivec (by
            cases hcd : c.isDirectory
            · rfl
            · exact absurd hcd hdir)
          have hput := putItem_live { c with deletedAt := some now } c st hgetc
            (by rw [hlivec]; rfl)
          rw [tomb_idem] at hput
          refine ⟨putStore { c with deletedAt := some now } st, ?_, ?_, ?_, ?_, ?_⟩
          · simp only [rmdirChildren]
            rw [if_neg hdead]
            rw [hitem, if_neg hdir]
            rw [show deleteFileA c.path now st =
                (putStore { c with deletedAt := some now } st, Except.ok ()) from by
              unfold deleteFileA
              rw [hgetc]
              dsimp only
              rw [if_neg hdead, hput]]
          · -- frame
            intro q hq
            rw [getItem_putStore]
            rw [if_neg (show ¬ q = ({ c with deletedAt := some now } :
                IndexedDBFileStat).path from fun h => hq (h ▸ desc_refl c.path))]
          · -- killed
            intro q r hdq hg
            rw [getItem_putStore] at hg
            by_cases hqc : q = ({ c with deletedAt := some now } : IndexedDBFileStat).path
            · rw [if_pos hqc] at hg
              cases hg
              rfl
            · rw [if_neg hqc] at hg
              rcases hdq with rfl | hpre
              · exact absurd rfl hqc
              · have hrmem : r ∈ st := getItem_mem hg
                have hrpath : r.path = q := getItem_path hg
                cases hrd : r.deletedAt with
                | some t => rfl
                | none =>
                  have hfalse := hnl r hrmem hrd
                  rw [hrpath, hpre] at hfalse
                  exact Bool.noConfusion hfalse
          · -- provenance
            intro r hr
            rcases mem_putStore hr with rfl | ⟨hrst, _⟩
            · exact ⟨c, hcmem, Or.inr rfl⟩
            · exact ⟨r, hrst, Or.inl rfl⟩
          · exact NodupKeys_putStore _ HN
      obtain ⟨st1, hstep, K1⟩ := hstage
      have HW1 := kill_WFstore K1 HW
      have HC1 := kill_Closed K1 HW HC
      have HN1 := K1.nodup
      have Hcur1 : ∀ d ∈ rest, d.deletedAt = none → getItem d.path st1 = some d := by
        intro d hd hl
        have hwfd := (Hwf d (List.mem_cons_of_mem _ hd)).1
        have hpd := (Hwf d (List.mem_cons_of_mem _ hd)).2
        have hcanonpd : Canon d.parentPath := by rw [hpd]; exact hcp
        obtain ⟨hshaped0, _, hsegnsd⟩ := child_shape hwfd hcanonpd
        have hshaped : d.path = p ++ '/' :: lastSeg d.path := by rw [← hpd]; exact hshaped0
        have hnepath : d.path ≠ c.path := by
          intro hcd
          have : c.path ∈ rest.map (fun c => c.path) := hcd ▸ List.mem_map_of_mem _ hd
          exact (List.nodup_cons.mp Hnd).1 this
        rw [K1.frame d.path (sibling_not_desc hshape hshaped hsegnsd hnepath)]
        exact Hcur d (List.mem_cons_of_mem _ hd) hl
      have Hb1 : Bound p st1 (2 * f + 2) := by
        intro r hr hl hpre
        exact Hb r (kill_live_mem K1 hr hl) hl hpre
      obtain ⟨st', hrec, Fr, Kl, Pv, Nd, Wf, Cl⟩ :=
        ih st1 (fun d hd => Hwf d (List.mem_cons_of_mem _ hd))
          (List.nodup_cons.mp Hnd).2 Hcur1 ⟨HW1, HN1, HC1⟩ Hb1
      refine ⟨st', by rw [hstep]; exact hrec, ?_, ?_, ?_, Nd, Wf, Cl⟩
      · -- frame
        intro q hq
        rw [Fr q (fun d hd hl => hq d (List.mem_cons_of_mem _ hd) hl)]
        exact K1.frame q (hq c hmemc hlivec)
      · -- killed
        intro d hd hl
        rcases List.mem_cons.mp hd with rfl | hd
        · intro q r hdq hg
          have hfr : getItem q st' = getItem q st1 := by
            apply Fr
            intro e he hle hdeq
            have hwfe := (Hwf e (List.mem_cons_of_mem _ he)).1
            have hpe := (Hwf e (List.mem_cons_of_mem _ he)).2
            have hcanonpe : Canon e.parentPath := by rw [hpe]; exact hcp
            obtain ⟨hshapee0, _, hsegnse⟩ := child_shape hwfe hcanonpe
            have hshapee : e.path = p ++ '/' :: lastSeg e.path := by
              rw [← hpe]; exact hshapee0
            have hnepath : d.path ≠ e.path := by
              intro hce
              have : d.path ∈ rest.map (fun c => c.path) := hce ▸ List.mem_map_of_mem _ he
              exact (List.nodup_cons.mp Hnd).1 this
            exact desc_trees_disjoint hshape hshapee hsegns hsegnse hnepath hdq hdeq
          rw [hfr] at hg
          exact K1.killed q r hdq hg
        · intro q r hdq hg
          exact Kl d hd hl q r hdq hg
      · -- provenance composes
        intro r hr
        obtain ⟨r1, hr1, hcase1⟩ := Pv r hr
        obtain ⟨r0, hr0, hcase0⟩ := K1.prov r1 hr1
        rcases hcase1 with rfl | rfl
        · exact ⟨r0, hr0, hcase0⟩
        · rcases hcase0 with rfl | rfl
          · exact ⟨r1, hr0, Or.inr rfl⟩
          · exact ⟨r0, hr0, Or.inr rfl⟩

/-- `IndexedDBAdaptor.rmdir` on a live record with enough fuel succeeds and
tombstones exactly the subtree. (`N` drives the induction; `g` is the fuel.) -/
theorem rmdirA_ok_aux (now : Nat) : ∀ N g p st s, g ≤ N → 1 ≤ g →
    StoreInv st → Canon p → getItem p st = some s → s.deletedAt = none →
    Bound p st (2 * g) →
    ∃ st', rmdirA now g p st = (st', .ok ()) ∧ KillSpec now p st st' := by
  intro N
  induction N with
  | zero =>
    intro g p st s hgN h1
    exact absurd h1 (by omega)
  | succ N ihN =>
    intro g p st s hgN h1 hinv hcp hgs hlive hb
    by_cases hgN' : g ≤ N
    · exact ihN g p st s hgN' h1 hinv hcp hgs hlive hb
    · have hg : g = N + 1 := by omega
      subst hg
      obtain ⟨HW, HN, HC⟩ := hinv
      have hsp : s.path = p := getItem_path hgs
      have hloop := rmdirChildren_ok now N p hcp
        (fun g' hg' p' st' s' h1' hinv' hcp' hg'' hl' hb' =>
          ihN g' p' st' s' hg' h1' hinv' hcp' hg'' hl' hb')
        (listItems p st) st
        (fun c hc => ⟨HW c (mem_listItems hc).1, (mem_listItems hc).2⟩)
        (List.Nodup.sublist ((listItems_sublist p st).map _) HN)
        (fun c hc _ => getItem_of_mem_nodup HN (mem_listItems hc).1)
        ⟨HW, HN, HC⟩
        (fun r hr hl hpre => by have := hb r hr hl hpre; omega)
      obtain ⟨st1, hloopeq, Fr, Kl, Pv, Nd1, Wf1, Cl1⟩ := hloop
      have hndescp : ∀ c ∈ listItems p st, c.deletedAt = none → ¬ descOrSelf c.path p := by
        intro c hc _
        obtain ⟨hcmem, hcp'⟩ := mem_listItems hc
        have hlen := child_len (HW c hcmem) (by rw [hcp']; exact hcp)
        have hpl : c.parentPath.length = p.length := by rw [hcp']
        exact not_desc_of_lt (by omega)
      have hget1 : getItem p st1 = some s := by
        rw [Fr p hndescp]
        exact hgs
      have hget1s : getItem s.path st1 = some s := by
        rw [hsp]
        exact hget1
      have hput := putItem_live { s with deletedAt := some now } s st1 hget1s
        (by rw [hlive]; rfl)
      rw [tomb_idem] at hput
      have hstep : rmdirA now (N + 1) p st =
          (putStore { s with deletedAt := some now } st1, Except.ok ()) := by
        simp only [rmdirA]
        rw [hgs]
        dsimp only
        rw [if_neg (by simp [hlive])]
        rw [hloopeq]
        dsimp only
        rw [hput]
      refine ⟨putStore { s with deletedAt := some now } st1, hstep, ⟨?_, ?_, ?_, ?_⟩⟩
      · -- frame
        intro q hq
        have hqnep : q ≠ p := fun h => hq (h ▸ desc_refl p)
        rw [getItem_putStore]
        rw [if_neg (show ¬ q = ({ s with deletedAt := some now } :
            IndexedDBFileStat).path from fun h => hqnep (h.trans hsp))]
        apply Fr
        intro c hc hl hdq
        obtain ⟨hcmem, hcp'⟩ := mem_listItems hc
        obtain ⟨hshape0, _, _⟩ := child_shape (HW c hcmem) (by rw [hcp']; exact hcp)
        exact hq (Or.inr (desc_of_child_desc
          (show c.path = p ++ '/' :: lastSeg c.path from by rw [← hcp']; exact hshape0) hdq))
      · -- killed
        intro q r hdq hg
        rw [getItem_putStore] at hg
        by_cases hqsp : q = ({ s with deletedAt := some now } : IndexedDBFileStat).path
        · rw [if_pos hqsp] at hg
          cases hg
          rfl
        · rw [if_neg hqsp] at hg
          have hqnep : q ≠ p := fun h => hqsp (h.trans hsp.symm)
          rcases hdq with rfl | hpre
          · exact absurd rfl hqnep
          · by_contra hrd
            have hrl : r.deletedAt = none := Option.not_isSome_iff_eq_none.mp hrd
            by_cases hcov : ∃ c ∈ listItems p st, c.deletedAt = none ∧ descOrSelf c.path q
            · obtain ⟨c, hc, hcl, hcd⟩ := hcov
              exact hrd (Kl c hc hcl q r hcd hg)
            · push_neg at hcov
              rw [Fr q hcov] at hg
              have hrmem : r ∈ st := getItem_mem hg
              have hrpath : r.path = q := getItem_path hg
              obtain ⟨c, hcmem, hcp', hcl, hcd⟩ :=
                chain_up HW HC p r hrmem hrl (by rw [hrpath]; exact hpre)
              rw [hrpath] at hcd
              exact hcov c (listItems_mem_of hcmem hcp') hcl hcd
      · -- provenance
        intro r hr
        rcases mem_putStore hr with rfl | ⟨hr1, _⟩
        · exact ⟨s, getItem_mem hgs, Or.inr rfl⟩
        · obtain ⟨r0, hr0, hcase⟩ := Pv r hr1
          exact ⟨r0, hr0, hcase⟩
      · exact NodupKeys_putStore _ Nd1

theorem rmdirA_ok (now fuel : Nat) (p : JSStr) (st : Store) (s : IndexedDBFileStat)
    (h1 : 1 ≤ fuel) (hinv : StoreInv st) (hcp : Canon p)
    (hgs : getItem p st = some s) (hlive : s.deletedAt = none)
    (hb : Bound p st (2 * fuel)) :
    ∃ st', rmdirA now fuel p st = (st', .ok ()) ∧ KillSpec now p st st' :=
  rmdirA_ok_aux now fuel fuel p st s le_rfl h1 hinv hcp hgs hlive hb

theorem objSet_ne_nil (m : PathMap) (k : JSStr) (v : FileStat) : objSet m k v ≠ [] := by
  unfold objSet
  by_cases h : m.any (fun kv => kv.1 == k)
  · rw [if_pos h]
    cases m with
    | nil => simp at h
    | cons a t => simp
  · rw [if_neg h]
    simp

theorem objAssign_ne_nil (kvs : PathMap) : ∀ m, m ≠ [] → objAssign m kvs ≠ [] := by
  induction kvs with
  | nil => intro m h; exact h
  | cons kv rest ih => intro m h; exact ih (objSet m kv.1 kv.2) (objSet_ne_nil _ _ _)

theorem mem_listA_of {c : IndexedDBFileStat} {st : Store} {p : JSStr}
    (hc : c ∈ st) (hp : c.parentPath = p) (hl : c.deletedAt = none) :
    (c.path, convertFileStat c) ∈ listA p st := by
  unfold listA
  apply List.mem_map_of_mem
  apply List.mem_filter.mpr
  exact ⟨listItems_mem_of hc hp, by rw [hl]; rfl⟩

theorem mem_listA {kv : JSStr × FileStat} {st : Store} {p : JSStr}
    (h : kv ∈ listA p st) :
    ∃ c ∈ st, c.deletedAt = none ∧ c.parentPath = p ∧ kv = (c.path, convertFileStat c) := by
  unfold listA at h
  obtain ⟨c, hcf, rfl⟩ := List.mem_map.mp h
  obtain ⟨hcl, hlb⟩ := List.mem_filter.mp hcf
  obtain ⟨hcmem, hcpp⟩ := mem_listItems hcl
  refine ⟨c, hcmem, ?_, hcpp, rfl⟩
  cases hd : c.deletedAt with
  | none => rfl
  | some t =>
    rw [hd] at hlb
    exact absurd hlb (by simp)

/-- With `recursive := false` the entry loop of `list` never recurses: it
returns the accumulated object and leaves the state alone; the result is
nonempty as soon as one entry key differs from the listed path. -/
theorem listEntries_false {σ : Type} (A : Adaptor σ) (f : Nat) (path : JSStr) :
    ∀ entries acc st, ∃ m, listEntries A f false path entries acc st = (st, .ok m)
      ∧ (acc ≠ [] → m ≠ [])
      ∧ (∀ kv ∈ entries, (kv.1 == path) = false → m ≠ []) := by
  intro entries
  induction entries with
  | nil =>
    intro acc st
    exact ⟨acc, by simp only [listEntries], fun h => h,
      fun kv h => absurd h (List.not_mem_nil kv)⟩
  | cons kv rest ih =>
    intro acc st
    by_cases hk : (kv.1 == path) = true
    · obtain ⟨m, hm, h1, h2⟩ := ih acc st
      refine ⟨m, ?_, h1, ?_⟩
      · simp only [listEntries]
        rw [if_pos hk]
        exact hm
      · intro kv' hkv' hne
        rcases List.mem_cons.mp hkv' with rfl | h
        · rw [hk] at hne
          exact absurd hne (by simp)
        · exact h2 kv' h hne
    · obtain ⟨m, hm, h1, h2⟩ := ih (objSet acc kv.1 kv.2) st
      refine ⟨m, ?_, ?_, ?_⟩
      · simp only [listEntries]
        rw [if_neg hk]
        rw [if_neg (show ¬ ((kv.2.isDirectory && false) = true) by simp)]
        exact hm
      · intro _
        exact h1 (objSet_ne_nil _ _ _)
      · intro _ _ _
        exact h1 (objSet_ne_nil _ _ _)

theorem statA_some_live {p : JSStr} {st : Store} {s : IndexedDBFileStat}
    (hg : getItem p st = some s) (hl : s.deletedAt = none) :
    statA p st = some (convertFileStat s) := by
  unfold statA
  rw [hg]
  dsimp only
  rw [if_neg (by simp [hl])]

theorem statA_none_of_dead {q : JSStr} {st : Store}
    (h : ∀ r, getItem q st = some r → r.deletedAt.isSome = true) :
    statA q st = none := by
  unfold statA
  cases hg : getItem q st with
  | none => rfl
  | some r =>
    dsimp only
    rw [if_pos (h r hg)]

/-- Recursive `FilesMultitool.list` over the IndexedDB adaptor succeeds
without touching the store, given fuel exceeding the subtree depth. -/
theorem listO_ok_aux (fa now : Nat) : ∀ N fl p (st : Store), fl ≤ N → 1 ≤ fl →
    WFstore st → NodupKeys st → ClosedStore st →
    Canon p → isSub ['.', '.'] p = false →
    (∀ r ∈ st, r.deletedAt = none → isPre (p ++ ['/']) r.path = true →
      r.path.length < p.length + fl) →
    ∃ m, listO (idb fa now) fl p true st = (st, .ok m) := by
  intro N
  induction N with
  | zero =>
    intro fl p st hN h1
    exact absurd h1 (by omega)
  | succ N ihN =>
    intro fl p st hN h1 HW HN HC hcp hdd hb
    by_cases hN' : fl ≤ N
    · exact ihN fl p st hN' h1 HW HN HC hcp hdd hb
    · have hfl : fl = N + 1 := by omega
      subst hfl
      have loop : ∀ entries acc,
          (∀ kv ∈ entries, ∃ c ∈ st, c.deletedAt = none ∧ c.parentPath = p ∧
            kv = (c.path, convertFileStat c)) →
          ∃ m, listEntries (idb fa now) N true p entries acc st = (st, .ok m) := by
        intro entries
        induction entries with
        | nil =>
          intro acc _
          exact ⟨acc, by simp only [listEntries]⟩
        | cons kv rest ihe =>
          intro acc hkv
          obtain ⟨c, hcmem, hclive, hcpp, hkveq⟩ := hkv kv (List.mem_cons_self _ _)
          subst hkveq
          have hrest : ∀ kv ∈ rest, ∃ c ∈ st, c.deletedAt = none ∧ c.parentPath = p ∧
              kv = (c.path, convertFileStat c) :=
            fun kv hk => hkv kv (List.mem_cons_of_mem _ hk)
          have hwfc : WFrec c := HW c hcmem
          have hcanonpc : Canon c.parentPath := by rw [hcpp]; exact hcp
          obtain ⟨hshape0, hsegne, hsegns⟩ := child_shape hwfc hcanonpc
          have hshape : c.path = p ++ '/' :: lastSeg c.path := by
            rw [← hcpp]; exact hshape0
          have hlen : p.length + 2 ≤ c.path.length := by
            have h2 := child_len hwfc hcanonpc
            have h3 : c.parentPath.length = p.length := by rw [hcpp]
            omega
          have hdescc : isPre (p ++ ['/']) c.path = true := by
            rw [hshape]
            exact desc_extend (desc_refl p) _
          have hboundc := hb c hcmem hclive hdescc
          by_cases hk : ((c.path, convertFileStat c).1 == p) = true
          · obtain ⟨m, hm⟩ := ihe acc hrest
            refine ⟨m, ?_⟩
            simp only [listEntries]
            rw [if_pos hk]
            exact hm
          · by_cases hdir : (convertFileStat c).isDirectory = true
            · -- subdirectory: recurse
              have hN1 : 1 ≤ N := by omega
              have hBc : ∀ r ∈ st, r.deletedAt = none →
                  isPre (c.path ++ ['/']) r.path = true →
                  r.path.length < c.path.length + N := by
                intro r hr hl hpre
                have hpp : isPre (p ++ ['/']) (c.path ++ ['/']) = true := by
                  refine isPre_iff.mpr ⟨lastSeg c.path ++ ['/'], ?_⟩
                  conv_lhs => rw [hshape]
                  simp
                have := hb r hr hl (isPre_trans hpp hpre)
                omega
              obtain ⟨children, hch⟩ :=
                ihN N c.path st le_rfl hN1 HW HN HC hwfc.1 hwfc.2.1 hBc
              obtain ⟨m, hm⟩ := ihe (objAssign (objSet acc c.path (convertFileStat c))
                children) hrest
              refine ⟨m, ?_⟩
              simp only [listEntries]
              rw [if_neg hk]
              rw [if_pos (show ((c.path, convertFileStat c).2.isDirectory && true) = true by
                simp [hdir])]
              rw [show ((c.path, convertFileStat c).2.path) = c.path from rfl, hch]
              exact hm
            · obtain ⟨m, hm⟩ := ihe (objSet acc c.path (convertFileStat c)) hrest
              refine ⟨m, ?_⟩
              simp only [listEntries]
              rw [if_neg hk]
              rw [if_neg (show ¬ (((c.path, convertFileStat c).2.isDirectory && true) = true) by
                simp [hdir])]
              exact hm
      obtain ⟨m, hm⟩ := loop (listA p st) [] (fun kv hk => mem_listA hk)
      refine ⟨m, ?_⟩
      simp only [listO]
      rw [cleanPath_canon hcp hdd]
      dsimp only [idb]
      exact hm

/-- C5: over the IndexedDB adaptor, for a directory `p` with at least one live
entry, `rmdir(p, false)` fails with 'Directory is not empty.' leaving state and
event log exactly as they were (the backend removal never runs), while
`rmdir(p, true)` succeeds, tombstoning `p` together with every descendant
(`stat` is null on the whole subtree afterwards) and touching nothing outside
the subtree. -/
theorem C5_rmdir_nonempty (fa fl now : Nat) (p : JSStr) (st : Store)
    (s c : IndexedDBFileStat) (evs : List Ev)
    (HW : WFstore st) (HN : NodupKeys st) (HC : ClosedStore st)
    (hcp : Canon p) (hdd : isSub ['.', '.'] p = false)
    (hgs : getItem p st = some s) (hslive : s.deletedAt = none)
    (hsdir : s.isDirectory = true)
    (hc : c ∈ st) (hcpp : c.parentPath = p) (hclive : c.deletedAt = none)
    (hfl : 1 ≤ fl) (hfa : 1 ≤ fa)
    (hbl : ∀ r ∈ st, r.deletedAt = none → isPre (p ++ ['/']) r.path = true →
      r.path.length < p.length + fl)
    (hba : ∀ r ∈ st, r.deletedAt = none → isPre (p ++ ['/']) r.path = true →
      r.path.length < p.length + 2 * fa) :
    rmdirO (idb fa now) fl p false st evs = ((st, evs), .error errDirNotEmpty)
    ∧ ∃ st' evs', rmdirO (idb fa now) fl p true st evs = ((st', evs'), .ok ())
        ∧ (∀ q, descOrSelf p q → statA q st' = none)
        ∧ (∀ q, ¬ descOrSelf p q → getItem q st' = getItem q st) := by
  have hcleanp : cleanPath p = .ok p := cleanPath_canon hcp hdd
  have hstatA : statA p st = some (convertFileStat s) := statA_some_live hgs hslive
  have hdirneg : ¬ ((!(convertFileStat s).isDirectory) = true) := by
    simp [convertFileStat, hsdir]
  obtain ⟨f, rfl⟩ : ∃ f, fl = f + 1 := ⟨fl - 1, by omega⟩
  constructor
  · -- non-recursive: directory-not-empty guard fires, nothing changes
    obtain ⟨m, hmEq, h1, h2⟩ := listEntries_false (idb fa now) f p (listA p st) [] st
    have hlenc : p.length + 2 ≤ c.path.length := by
      have h2l := child_len (HW c hc) (by rw [hcpp]; exact hcp)
      have h3 : c.parentPath.length = p.length := by rw [hcpp]
      omega
    have hmne : m ≠ [] := by
      refine h2 (c.path, convertFileStat c) (mem_listA_of hc hcpp hclive) ?_
      refine beq_eq_false_iff_ne.mpr ?_
      intro h
      have := congrArg List.length h
      simp at this
      omega
    have hmE : m.isEmpty = false := by
      cases m with
      | nil => exact absurd rfl hmne
      | cons a t => rfl
    have hlistF : listO (idb fa now) (f + 1) p false st = (st, .ok m) := by
      simp only [listO]
      rw [hcleanp]
      dsimp only [idb]
      exact hmEq
    unfold rmdirO
    rw [hcleanp]
    dsimp only
    rw [show (idb fa now).stat p st = (st, Except.ok (statA p st)) from rfl]
    dsimp only
    rw [hstatA]
    dsimp only
    rw [if_neg hdirneg, hlistF]
    dsimp only
    rw [if_pos (show (!m.isEmpty && !false) = true by rw [hmE]; rfl)]
  · -- recursive: the subtree is tombstoned
    obtain ⟨m2, hlistT⟩ :=
      listO_ok_aux fa now (f + 1) (f + 1) p st le_rfl hfl HW HN HC hcp hdd hbl
    obtain ⟨st', hrm, K⟩ := rmdirA_ok now fa p st s hfa ⟨HW, HN, HC⟩ hcp hgs hslive hba
    refine ⟨st',
      evs ++ massEmit .deleted p (convertFileStat s) (some m2) none none none, ?_, ?_, ?_⟩
    · unfold rmdirO
      rw [hcleanp]
      dsimp only
      rw [show (idb fa now).stat p st = (st, Except.ok (statA p st)) from rfl]
      dsimp only
      rw [hstatA]
      dsimp only
      rw [if_neg hdirneg, hlistT]
      dsimp only
      rw [if_neg (show ¬ ((!m2.isEmpty && !true) = true) by simp)]
      rw [show (idb fa now).rmdir p st = rmdirA now fa p st from rfl, hrm]
    · intro q hdq
      exact statA_none_of_dead (fun r hg => K.killed q r hdq hg)
    · intro q hq
      exact K.frame q hq

/-- A two-record store: the directory `d` containing the file `d/x`. -/
def c5Dir : IndexedDBFileStat :=
  { path := "d".data
    parentPath := []
    isDirectory := true
    isFile := false
    size := 0
    modifiedTime := some 0
    createdTime := some 0
    content := none
    deletedAt := none }

def c5File : IndexedDBFileStat :=
  { path := "d/x".data
    parentPath := "d".data
    isDirectory := false
    isFile := true
    size := 0
    modifiedTime := some 0
    createdTime := some 0
    content := some []
    deletedAt := none }

def c5Store : Store := [c5Dir, c5File]

theorem C5_rmdir_nonempty_witness :
    rmdirO (idb 2 5) 3 ("d".data) false c5Store [] = ((c5Store, []), .error errDirNotEmpty)
    ∧ ∃ st' evs', rmdirO (idb 2 5) 3 ("d".data) true c5Store [] = ((st', evs'), .ok ())
        ∧ (∀ q, descOrSelf ("d".data) q → statA q st' = none)
        ∧ (∀ q, ¬ descOrSelf ("d".data) q → getItem q st' = getItem q c5Store) :=
  C5_rmdir_nonempty 2 3 5 ("d".data) c5Store c5Dir c5File []
    (by unfold WFstore WFrec Canon; decide) (by unfold NodupKeys; decide)
    (by
      intro r hr hlive hppne
      rcases List.mem_cons.mp hr with rfl | hr
      · exact absurd rfl hppne
      · rcases List.mem_cons.mp hr with rfl | hr
        · exact ⟨c5Dir, by decide, by decide, by decide⟩
        · exact absurd hr (List.not_mem_nil _))
    (by unfold Canon; decide) (by decide) (by decide) (by decide) (by decide)
    (by decide) (by decide) (by decide) (by decide) (by decide)
    (by decide) (by decide)
